import Mathlib

/-!
Verification of the pg-differ declarative PostgreSQL schema-synchronization engine.

This file gives a shallow embedding of the components the frozen claims are about:
the value codec (quoteLiteral, encodeValue, decodeValue, defaultValueInformationSchema),
the sequence differ, the operation orderer, the transactional executor of the sync
entry point, the cleanable-policy normalizer and the object registry.  Definitions
are translated from the JavaScript source under src/; the few constants and helpers
that live in files not shipped under src/ (the constants tables and utils.sortByList)
are modelled from the spec and say so in their doc comments.  Strings are modelled
as lists of characters via String.data; JavaScript values are modelled by the
inductive JsValue; fallible steps return Option or Except.
-/

set_option autoImplicit false

/-- The characters JavaScript regular expressions treat as line terminators,
which the dot metacharacter does not match. -/
def isLineTerm (c : Char) : Bool :=
  c = '\n' ∨ c = '\r' ∨ c.val = 8232 ∨ c.val = 8233

/-- One step of the character loop of quoteLiteral (src/src/parser.js lines 236-246):
single quotes and backslashes are doubled, and the flag records whether a backslash
was seen. -/
def quoteLoop : List Char → Bool → List Char → Bool × List Char
  | [], hb, acc => (hb, acc)
  | c :: rest, hb, acc =>
    if c = '\x27' then quoteLoop rest hb (acc ++ [c, c])
    else if c = '\\' then quoteLoop rest true (acc ++ [c, c])
    else quoteLoop rest hb (acc ++ [c])

/-- quoteLiteral from src/src/parser.js lines 230-255: wraps the value in single
quotes, doubling interior quotes and backslashes, and prepends E when a backslash
was present. -/
def quoteLiteral (value : String) : String :=
  let r := quoteLoop value.data false ['\x27']
  let quoted := r.2 ++ ['\x27']
  if r.1 then String.mk ('E' :: quoted) else String.mk quoted

/-- Specification-side per-character escaping: a single quote or a backslash is
doubled, every other character is kept. -/
def escChars (l : List Char) : List Char :=
  l.flatMap (fun c => if c = '\x27' ∨ c = '\\' then [c, c] else [c])

/-- Decimal digit character for a value below ten. -/
def digitChar (n : Nat) : Char := Char.ofNat (48 + n)

/-- Decimal rendering with a structural fuel bound; any fuel of at least the
digit count gives the rendering. -/
def natToCharsAux : Nat → Nat → List Char
  | 0, _ => []
  | f + 1, n =>
    if n < 10 then [digitChar n]
    else natToCharsAux f (n / 10) ++ [digitChar (n % 10)]

/-- Decimal rendering of a natural number, as JavaScript renders integer Numbers. -/
def natToChars (n : Nat) : List Char := natToCharsAux (n + 1) n

/-- Decimal rendering of an integer, as JavaScript renders integer Numbers. -/
def intToChars (n : Int) : List Char :=
  if n < 0 then '-' :: natToChars n.natAbs else natToChars n.natAbs

/-- True for the characters 0 to 9. -/
def isDigitCh (c : Char) : Bool := 48 ≤ c.toNat ∧ c.toNat ≤ 57

/-- Numeric value accumulated from a list of decimal digit characters, most
significant first. -/
def digitsToNat (l : List Char) : Nat :=
  l.foldl (fun acc c => 10 * acc + (c.toNat - 48)) 0

mutual

/-- JavaScript JSON values as produced by JSON.parse: null, booleans, integer
numbers, strings, and objects (arrays are not needed by the claims and the
declarative inputs in question are objects of scalars and nested objects). -/
inductive Json where
  | jnull
  | jbool (b : Bool)
  | jnum (n : Int)
  | jstr (s : String)
  | jobj (fs : JFields)
  deriving DecidableEq

/-- The ordered field list of a JSON object. -/
inductive JFields where
  | fnil
  | fcons (k : String) (v : Json) (rest : JFields)
  deriving DecidableEq

end

/-- JSON string escaping as performed by JSON.stringify: quote, backslash and
control characters are escaped, everything else is kept. -/
def jsonEscape (l : List Char) : List Char :=
  l.flatMap (fun c =>
    if c = '"' then ['\\', '"']
    else if c = '\\' then ['\\', '\\']
    else if c = '\n' then ['\\', 'n']
    else if c = '\r' then ['\\', 'r']
    else if c = '\t' then ['\\', 't']
    else if c.val = 8 then ['\\', 'b']
    else if c.val = 12 then ['\\', 'f']
    else if c.val < 32 then
      ['\\', 'u', '0', '0', digitChar (c.toNat / 16),
        if c.toNat % 16 < 10 then digitChar (c.toNat % 16)
        else Char.ofNat (87 + c.toNat % 16)]
    else [c])

mutual

/-- JSON.stringify (no spacing argument) on the modelled value fragment. -/
def jsonStringifyData : Json → List Char
  | .jnull => ['n', 'u', 'l', 'l']
  | .jbool true => ['t', 'r', 'u', 'e']
  | .jbool false => ['f', 'a', 'l', 's', 'e']
  | .jnum n => intToChars n
  | .jstr s => '"' :: (jsonEscape s.data ++ ['"'])
  | .jobj fs => '\x7b' :: (jsonFieldsData fs ++ ['\x7d'])

/-- JSON.stringify of the comma separated field list of an object. -/
def jsonFieldsData : JFields → List Char
  | .fnil => []
  | .fcons k v .fnil =>
      '"' :: (jsonEscape k.data ++ '"' :: ':' :: jsonStringifyData v)
  | .fcons k v (.fcons k2 v2 rest) =>
      '"' :: (jsonEscape k.data ++ '"' :: ':' :: jsonStringifyData v) ++
        ',' :: jsonFieldsData (.fcons k2 v2 rest)

end

/-- JSON.stringify of a value, as a string. -/
def jsonStringify (j : Json) : String := String.mk (jsonStringifyData j)

/-- Longest prefix of decimal digits together with the remainder. -/
def spanDigits (l : List Char) : List Char × List Char :=
  l.span isDigitCh

/-- Value of a hexadecimal digit character, if it is one. -/
def hexVal (c : Char) : Option Nat :=
  if isDigitCh c then some (c.toNat - 48)
  else if 'a' ≤ c ∧ c ≤ 'f' then some (c.toNat - 87)
  else if 'A' ≤ c ∧ c ≤ 'F' then some (c.toNat - 55)
  else none

/-- JSON string body reader: consumes characters up to the closing double quote,
decoding backslash escapes, and returns the decoded characters together with the
remainder after the closing quote. -/
def parseJStrData : List Char → Option (List Char × List Char)
  | [] => none
  | c :: r =>
    if c = '"' then some ([], r)
    else if c = '\\' then
      match r with
      | [] => none
      | e :: r2 =>
        match e, r2 with
        | '"', r3 => (parseJStrData r3).map (fun p => ('"' :: p.1, p.2))
        | '\\', r3 => (parseJStrData r3).map (fun p => ('\\' :: p.1, p.2))
        | '/', r3 => (parseJStrData r3).map (fun p => ('/' :: p.1, p.2))
        | 'n', r3 => (parseJStrData r3).map (fun p => ('\n' :: p.1, p.2))
        | 't', r3 => (parseJStrData r3).map (fun p => ('\t' :: p.1, p.2))
        | 'r', r3 => (parseJStrData r3).map (fun p => ('\r' :: p.1, p.2))
        | 'b', r3 => (parseJStrData r3).map (fun p => (Char.ofNat 8 :: p.1, p.2))
        | 'f', r3 => (parseJStrData r3).map (fun p => (Char.ofNat 12 :: p.1, p.2))
        | 'u', h1 :: h2 :: h3 :: h4 :: r3 =>
          match hexVal h1, hexVal h2, hexVal h3, hexVal h4 with
          | some a, some b, some cc, some d =>
            (parseJStrData r3).map
              (fun p => (Char.ofNat (4096 * a + 256 * b + 16 * cc + d) :: p.1, p.2))
          | _, _, _, _ => none
        | _, _ => none
    else (parseJStrData r).map (fun p => (c :: p.1, p.2))

/-- Reader for the tail of the literal null after its leading n. -/
def parseLitNull : List Char → Option (Json × List Char)
  | 'u' :: 'l' :: 'l' :: r2 => some (.jnull, r2)
  | _ => none

/-- Reader for the tail of the literal true after its leading t. -/
def parseLitTrue : List Char → Option (Json × List Char)
  | 'r' :: 'u' :: 'e' :: r2 => some (.jbool true, r2)
  | _ => none

/-- Reader for the tail of the literal false after its leading f. -/
def parseLitFalse : List Char → Option (Json × List Char)
  | 'a' :: 'l' :: 's' :: 'e' :: r2 => some (.jbool false, r2)
  | _ => none

/-- Reader for a negative number after its leading minus sign. -/
def parseNegNum (r : List Char) : Option (Json × List Char) :=
  let p := spanDigits r
  if p.1 = [] then none else some (.jnum (-(digitsToNat p.1 : Int)), p.2)

/-- Reader for a number starting with the digit already seen. -/
def parsePosNum (c : Char) (r : List Char) : Option (Json × List Char) :=
  let p := spanDigits (c :: r)
  some (.jnum (digitsToNat p.1 : Int), p.2)

mutual

/-- Fueled recursive descent JSON reader, modelling JSON.parse restricted to the
whitespace free texts JSON.stringify emits.  Returns the parsed value and the
remaining characters. -/
def parseJ : Nat → List Char → Option (Json × List Char)
  | 0, _ => none
  | _ + 1, [] => none
  | f + 1, c :: r =>
    if c = 'n' then parseLitNull r
    else if c = 't' then parseLitTrue r
    else if c = 'f' then parseLitFalse r
    else if c = '"' then (parseJStrData r).map (fun p => (Json.jstr (String.mk p.1), p.2))
    else if c = '-' then parseNegNum r
    else if c = '\x7b' then
      if r.head? = some '\x7d' then some (.jobj .fnil, r.tail)
      else (parseJFs f r).map (fun p => (Json.jobj p.1, p.2))
    else if isDigitCh c then parsePosNum c r
    else none

/-- Fueled reader for a nonempty object field list, positioned after the opening
brace; consumes up to and including the closing brace. -/
def parseJFs : Nat → List Char → Option (JFields × List Char)
  | 0, _ => none
  | f + 1, l =>
    match l with
    | '"' :: r =>
      match parseJStrData r with
      | some (k, ':' :: r2) =>
        match parseJ f r2 with
        | some (v, ',' :: r3) =>
          (parseJFs f r3).map (fun p => (.fcons (String.mk k) v p.1, p.2))
        | some (v, '\x7d' :: r3) => some (.fcons (String.mk k) v .fnil, r3)
        | _ => none
      | _ => none
    | _ => none

end

mutual

/-- Size measure used to supply enough fuel to parseJ. -/
def sizeJ : Json → Nat
  | .jnull => 1
  | .jbool _ => 1
  | .jnum _ => 1
  | .jstr _ => 1
  | .jobj fs => 1 + sizeJF fs

/-- Size measure for field lists. -/
def sizeJF : JFields → Nat
  | .fnil => 1
  | .fcons _ v rest => 1 + sizeJ v + sizeJF rest

end

/-- JSON.parse on a string: runs the reader with enough fuel and requires it to
consume the entire input. -/
def jsonParse (s : String) : Option Json :=
  match parseJ (s.data.length + 1) s.data with
  | some (j, []) => some j
  | _ => none

/-- JavaScript values flowing through the codec: numbers (integral, the only kind
the declarative inputs use), strings, booleans, null, undefined, and plain objects
(carried as JSON field lists). -/
inductive JsValue where
  | num (n : Int)
  | str (s : String)
  | bool (b : Bool)
  | nul
  | undef
  | obj (fs : JFields)
  deriving DecidableEq

/-- The JavaScript String(...) conversion on the modelled values. -/
def jsToString : JsValue → String
  | .num n => String.mk (intToChars n)
  | .str s => s
  | .bool true => "true"
  | .bool false => "false"
  | .nul => "null"
  | .undef => "undefined"
  | .obj _ => "[object Object]"

/-- JavaScript truthiness of the modelled values. -/
def truthy : JsValue → Bool
  | .num n => n ≠ 0
  | .str s => s ≠ ""
  | .bool b => b
  | .nul => false
  | .undef => false
  | .obj _ => true

/-- utils.isExist (src/unnamed/part_001): not null and not undefined. -/
def isExistV : JsValue → Bool
  | .nul => false
  | .undef => false
  | _ => true

/-- The conversion from a parsed JSON value back to a JavaScript value, as
JSON.parse returns it. -/
def toJsValue : Json → JsValue
  | .jnull => .nul
  | .jbool b => .bool b
  | .jnum n => .num n
  | .jstr s => .str s
  | .jobj fs => .obj fs

/-- A word character of the JavaScript regular expression class backslash w. -/
def isWordCh (c : Char) : Bool := c.isAlphanum ∨ c = '_'

/-- One attempt to match the type-option regular expression (src/src/parser.js
line 20: empty brackets, bracketed word, parenthesised word, or quoted word) at
the head of the input, returning the remainder on success. -/
def matchTypeOpt : List Char → Option (List Char)
  | '[' :: ']' :: r => some r
  | '[' :: r =>
    match r.span isWordCh with
    | ([], _) => none
    | (_, ']' :: r2) => some r2
    | _ => none
  | '(' :: r =>
    match r.span isWordCh with
    | ([], _) => none
    | (_, ')' :: r2) => some r2
    | _ => none
  | '\x27' :: r =>
    match r.span isWordCh with
    | ([], _) => none
    | (_, '\x27' :: r2) => some r2
    | _ => none
  | _ => none

/-- Global removal of every type-option match, scanning left to right as a
global string replace does.  The fuel argument bounds the number of scanning
steps; the input length always suffices. -/
def removeTypeOptsF : Nat → List Char → List Char
  | 0, l => l
  | _ + 1, [] => []
  | f + 1, c :: r =>
    match matchTypeOpt (c :: r) with
    | some r2 => removeTypeOptsF f r2
    | none => c :: removeTypeOptsF f r

/-- The JavaScript String.prototype.trim. -/
def jsTrim (l : List Char) : List Char :=
  ((l.dropWhile Char.isWhitespace).reverse.dropWhile Char.isWhitespace).reverse

/-- trimType from src/src/parser.js lines 22-23: strips bracket, length and
quoted modifiers and trims whitespace. -/
def trimType (type : String) : String :=
  String.mk (jsTrim (removeTypeOptsF type.data.length type.data))

/-- The three type groups of the value codec. -/
inductive TypeGroup where
  | json
  | integer
  | boolean
  deriving DecidableEq

/-- Modelled from the spec: the group table TYPES.GROUPS lives in src/constants,
which is not shipped under src/; section 4.1 of the spec fixes the groups as
JSON, INTEGER and BOOLEAN, here with representative canonical member names. -/
def groupMembers : TypeGroup → List String
  | .json => ["json", "jsonb"]
  | .integer => ["smallint", "integer", "bigint"]
  | .boolean => ["boolean"]

/-- getTypeGroup from src/src/parser.js lines 12-18: trims the type and finds the
group containing it, if any. -/
def getTypeGroup (type : String) : Option TypeGroup :=
  if type = "" then none
  else
    [TypeGroup.json, TypeGroup.integer, TypeGroup.boolean].find?
      (fun g => (groupMembers g).contains (trimType type))

/-- encodeValue from src/src/parser.js lines 70-88: numbers pass through, strings
ending in the raw suffix are emitted verbatim with the suffix stripped, other
strings are quoted, objects are JSON serialised then quoted, and every other
value passes through. -/
def encodeValue : JsValue → JsValue
  | .num n => .num n
  | .str s =>
    if "::sql".data.isSuffixOf s.data then
      .str (String.mk (s.data.take (s.data.length - 5)))
    else .str (quoteLiteral s)
  | .obj fs => .str (quoteLiteral (jsonStringify (.jobj fs)))
  | v => v

/-- The brackets-content extraction of decodeValue (src/src/parser.js line 92):
the payload between a leading and a trailing single quote, matched only when
every character between them is one the dot metacharacter accepts. -/
def extractQuoted : List Char → Option (List Char)
  | '\x27' :: rest =>
    if rest.getLast? = some '\x27' ∧ rest.dropLast.all (fun c => !(isLineTerm c)) then
      some rest.dropLast
    else none
  | _ => none

/-- decodeValue from src/src/parser.js lines 90-121.  The result is wrapped in
Option: none models a JSON.parse exception. -/
def decodeValue (value : JsValue) (type : String) : Option JsValue :=
  match value with
  | .str s =>
    let defaultValue := JsValue.str (s ++ "::sql")
    match getTypeGroup type with
    | some .json =>
      match extractQuoted s.data with
      | some mid =>
        match jsonParse (String.mk mid) with
        | some j => some (toJsValue j)
        | none => none
      | none => some defaultValue
    | some .integer =>
      if s.data.all isDigitCh then some (.str s) else some defaultValue
    | some .boolean =>
      if s = "true" then some (.bool true)
      else if s = "false" then some (.bool false)
      else some defaultValue
    | none =>
      match extractQuoted s.data with
      | some mid => some (.str (String.mk mid))
      | none => some defaultValue
  | v => some v

/-- The escaping of one character by JSON.stringify. -/
def escOneChar (c : Char) : List Char :=
  if c = '"' then ['\\', '"']
  else if c = '\\' then ['\\', '\\']
  else if c = '\n' then ['\\', 'n']
  else if c = '\r' then ['\\', 'r']
  else if c = '\t' then ['\\', 't']
  else if c.val = 8 then ['\\', 'b']
  else if c.val = 12 then ['\\', 'f']
  else if c.val < 32 then
    ['\\', 'u', '0', '0', digitChar (c.toNat / 16),
      if c.toNat % 16 < 10 then digitChar (c.toNat % 16)
      else Char.ofNat (87 + c.toNat % 16)]
  else [c]

/-- The texts whose characters survive both quoteLiteral and the brackets-content
extraction unchanged: no single quote, no backslash, no line terminator. -/
def cleanData (l : List Char) : Prop :=
  ∀ c ∈ l, c ≠ '\x27' ∧ c ≠ '\\' ∧ isLineTerm c = false

instance cleanDataDecidable (l : List Char) : Decidable (cleanData l) :=
  inferInstanceAs (Decidable (∀ c ∈ l, c ≠ '\x27' ∧ c ≠ '\\' ∧ isLineTerm c = false))

/-- The caller-facing cleanable object: one optional boolean per extension list
name (indexes, unique, foreignKeys, primaryKeys, checks), a field being none
when the caller did not mention that list. -/
structure CleanableInput where
  indexes : Option Bool
  unique : Option Bool
  foreignKeys : Option Bool
  primaryKeys : Option Bool
  checks : Option Bool
  deriving DecidableEq

/-- The normalized cleanable policy keyed by extension variant; a field is none
when the resulting JavaScript object has no entry for that variant. -/
structure Cleanable where
  index : Option Bool
  primaryKey : Option Bool
  foreignKey : Option Bool
  unique : Option Bool
  check : Option Bool
  deriving DecidableEq

/-- The literal defaults object of src/src/parser.js lines 133-138: primaryKey
true, foreignKey, unique and check false; it has no entry for index. -/
def _cleanableDefaults : Cleanable :=
  ⟨none, some true, some false, some false, some false⟩

/-- The merge of one caller override over a default entry: an entry present in
the caller object replaces the default, an absent one leaves it. -/
def overrideOpt (dflt override : Option Bool) : Option Bool :=
  match override with
  | some b => some b
  | none => dflt

/-- The normalization of the caller cleanable object, src/src/parser.js lines
157-167: when an object is supplied, its entries are renamed from list names to
variant names and spread over the defaults; otherwise the defaults are returned. -/
def _normalizeCleanableObject (object : Option CleanableInput) : Cleanable :=
  match object with
  | some inp =>
    ⟨overrideOpt _cleanableDefaults.index inp.indexes,
     overrideOpt _cleanableDefaults.primaryKey inp.primaryKeys,
     overrideOpt _cleanableDefaults.foreignKey inp.foreignKeys,
     overrideOpt _cleanableDefaults.unique inp.unique,
     overrideOpt _cleanableDefaults.check inp.checks⟩
  | none => _cleanableDefaults

/-- The JavaScript Map.set on an association list: an existing key keeps its
position and gets the new value, a new key is appended at the end. -/
def mapSet {α : Type} : List (String × α) → String → α → List (String × α)
  | [], k, v => [(k, v)]
  | (k0, v0) :: rest, k, v =>
    if k0 = k then (k, v) :: rest else (k0, v0) :: mapSet rest k v

/-- The JavaScript Map.get on an association list. -/
def mapGet {α : Type} : List (String × α) → String → Option α
  | [], _ => none
  | (k0, v0) :: rest, k => if k0 = k then some v0 else mapGet rest k

/-- Differ.define from src/lib/index.js lines 107-111: the created object is
stored in the objects registry under the name taken from its properties. -/
def defineObj {α : Type} (objects : List (String × α)) (name : String) (object : α) :
    List (String × α) :=
  mapSet objects name object

/-- The values of the registry in insertion order, as the sync preparation
iterates them (src/lib/index.js line 114). -/
def registryValues {α : Type} (objects : List (String × α)) : List α :=
  objects.map Prod.snd

/-- The nine characters the lookbehind of the schema-insertion pattern requires
before the insertion point (src/src/parser.js line 41). -/
def nextvalMark : List Char := ['n', 'e', 'x', 't', 'v', 'a', 'l', '(', '\x27']

/-- Whether the lookbehind holds at a scan position, the characters before the
position being pre. -/
def lbMatches (pre : List Char) : Bool := nextvalMark.isSuffixOf pre

/-- Left to right scan of the non-global replace of the zero-width pattern
lookbehind nextval-open-quote, lookahead no-dot-to-end, inserting public. at the
first matching position (src/src/parser.js line 41). -/
def insertPublicGo : List Char → List Char → List Char
  | pre, rest =>
    if lbMatches pre = true ∧ rest.contains '.' = false then
      pre ++ ('p' :: 'u' :: 'b' :: 'l' :: 'i' :: 'c' :: '.' :: rest)
    else
      match rest with
      | [] => pre
      | c :: rest2 => insertPublicGo (pre ++ [c]) rest2

/-- A character of the class letters-and-space of the trailing-cast pattern. -/
def isCastLetter (c : Char) : Bool :=
  (65 ≤ c.toNat ∧ c.toNat ≤ 90) ∨ (97 ≤ c.toNat ∧ c.toNat ≤ 122) ∨ c = ' '

/-- One array-bracket group of the trailing-cast pattern: empty brackets or
brackets around one or more digits; returns the remainder on success. -/
def parseGroup : List Char → Option (List Char)
  | '[' :: rest =>
    match rest with
    | ']' :: r => some r
    | _ =>
      let p := rest.span isDigitCh
      if p.1 = [] then none
      else
        match p.2 with
        | ']' :: r2 => some r2
        | _ => none
  | _ => none

/-- Greedy consumption of up to n bracket groups. -/
def castGroups : Nat → List Char → List Char
  | 0, l => l
  | n + 1, l =>
    match parseGroup l with
    | some r => castGroups n r
    | none => l

/-- Whether a list matches letters-and-spaces (one or more) followed by at most
two bracket groups followed by the end of input. -/
def castTail (l : List Char) : Bool :=
  let p := l.span isCastLetter
  p.1 ≠ [] ∧ castGroups 2 p.2 = []

/-- Whether a list is exactly one match of the anchored trailing-cast pattern
(src/src/parser.js line 43). -/
def castMatchesWhole : List Char → Bool
  | ':' :: ':' :: rest => castTail rest
  | _ => false

/-- Left to right scan for the leftmost start of a trailing-cast match; the
match always extends to the end, so removing it keeps the scanned prefix. -/
def stripCastGo : List Char → List Char → List Char
  | pre, rest =>
    if castMatchesWhole rest then pre
    else
      match rest with
      | [] => pre
      | c :: rest2 => stripCastGo (pre ++ [c]) rest2

/-- The string transformation of defaultValueInformationSchema: first the
schema insertion, then the trailing-cast strip. -/
def dvisChars (l : List Char) : List Char :=
  stripCastGo [] (insertPublicGo [] l)

/-- defaultValueInformationSchema from src/src/parser.js lines 37-54: strings
are rewritten, every other value is returned unchanged. -/
def defaultValueInformationSchema : JsValue → JsValue
  | .str s => .str (String.mk (dvisChars s.data))
  | v => v

/-- A character that the trailing-cast pattern can never consume after its two
colons. -/
def badCastChar (x : Char) : Prop :=
  isCastLetter x = false ∧ x ≠ '[' ∧ x ≠ ']' ∧ isDigitCh x = false

/-- The five compared sequence attributes, as carried by both the desired
properties and the observed snapshot. -/
structure SeqAttrs where
  start : JsValue
  min : JsValue
  max : JsValue
  increment : JsValue
  cycle : JsValue
  deriving DecidableEq

/-- The diff object built by _getDifference, with key insertion order start,
min, max, increment, cycle (the ATTRIBUTES constant, modelled from the spec
since src/constants is not shipped) and the optional current entry appended by
the bounds correctness check. -/
structure SeqDiff where
  start : Option JsValue
  min : Option JsValue
  max : Option JsValue
  increment : Option JsValue
  cycle : Option JsValue
  current : Option JsValue
  deriving DecidableEq

/-- One attribute of _getDifference: the desired value is kept exactly when the
String conversions differ. -/
def diffField (a b : JsValue) : Option JsValue :=
  if jsToString a ≠ jsToString b then some a else none

/-- _getDifference from the sequence differ (ATTRIBUTES.reduce comparing
String(left) with String(right)). -/
def _getDifference (a b : SeqAttrs) : SeqDiff :=
  ⟨diffField a.start b.start, diffField a.min b.min, diffField a.max b.max,
   diffField a.increment b.increment, diffField a.cycle b.cycle, none⟩

/-- utils.isExist on an optional diff entry: present and neither null nor
undefined. -/
def optExists : Option JsValue → Bool
  | some v => isExistV v
  | none => false

/-- The structure-present, force-unset branch of _getSqlChanges: when the diff
touches min or max the live correctness check runs, and a failed check adds a
current entry holding the desired minimum. -/
def seqDiffWithCurrent (properties structure_ : SeqAttrs) (correct : Bool) : SeqDiff :=
  let diff := _getDifference properties structure_
  if (optExists diff.min || optExists diff.max) = true then
    if correct = false then
      ⟨diff.start, diff.min, diff.max, diff.increment, diff.cycle, some properties.min⟩
    else diff
  else diff

/-- The start clause of _buildSql. -/
def startClause (v : JsValue) : String :=
  if truthy v then "start " ++ jsToString v else "no start"

/-- The increment clause of _buildSql; a falsy value falls back to the default
increment of one (DEFAULTS.increment, modelled from the spec since
src/constants is not shipped). -/
def incrementClause (v : JsValue) : String :=
  if truthy v then "increment " ++ jsToString v else "increment 1"

/-- The minvalue clause of _buildSql. -/
def minClause (v : JsValue) : String :=
  if truthy v then "minvalue " ++ jsToString v else "no minvalue"

/-- The maxvalue clause of _buildSql. -/
def maxClause (v : JsValue) : String :=
  if truthy v then "maxvalue " ++ jsToString v else "no maxvalue"

/-- The cycle clause of _buildSql. -/
def cycleClause (v : JsValue) : String :=
  if truthy v then "cycle" else "no cycle"

/-- The chunk contributed by a diff entry under a clause renderer. -/
def optClause (f : JsValue → String) : Option JsValue → List String
  | some v => [f v]
  | none => []

/-- The clause chunks of _buildSql, in the entry order of the diff object; the
restart clause is emitted only for an existing current value. -/
def _buildSqlChunks (d : SeqDiff) : List String :=
  optClause startClause d.start ++ optClause minClause d.min ++
    optClause maxClause d.max ++ optClause incrementClause d.increment ++
    optClause cycleClause d.cycle ++
    (match d.current with
     | some v => if isExistV v then ["restart with " ++ jsToString v] else []
     | none => [])

/-- The alter statement built by _buildSql: nothing when no chunk was produced,
otherwise the action header followed by the chunks joined with spaces. -/
def _buildSqlAlter (fullName : String) (d : SeqDiff) : Option String :=
  let chunks := _buildSqlChunks d
  if chunks.isEmpty then none
  else some (String.intercalate " " (("alter sequence " ++ fullName) :: chunks) ++ ";")

/-- The whole sequence differ for a sequence present in the snapshot with force
unset: diff, bounds check, alter statement. -/
def alterSequenceChanges (fullName : String) (properties structure_ : SeqAttrs)
    (correct : Bool) : Option String :=
  _buildSqlAlter fullName (seqDiffWithCurrent properties structure_ correct)

/-- One generated change operation: its tag and its SQL text, the two fields of
the Sql store entries consumed by _getFlatAndSortedSqlList. -/
structure SqlItem where
  operation : String
  value : String
  deriving DecidableEq

/-- R.uniq on the statement list: keeps the first occurrence of every string. -/
def uniqAux : List String → List String → List String
  | [], _ => []
  | x :: rest, seen =>
    if seen.contains x then uniqAux rest seen else x :: uniqAux rest (x :: seen)

/-- R.uniq on the statement list. -/
def uniqList (l : List String) : List String := uniqAux l []

/-- Modelled from the spec: utils.sortByList is not shipped under src/; per
section 4.5 it stably sorts the operations by the index of their tag in the
priority list, with operations whose tag is not listed retained after the
listed ones in their original relative order.  This is the bucket form of that
stable sort. -/
def sortByList (list : List String) (array : List SqlItem) : List SqlItem :=
  (list.flatMap (fun tag => array.filter (fun x => x.operation == tag))) ++
    array.filter (fun x => !(list.contains x.operation))

/-- The priority list the sync passes for the Extensions category
(src/unnamed/part_000 lines 203-209). -/
def extOrderList : List String :=
  ["drop foreignKey", "drop primaryKey", "drop unique", "delete rows", "add unique"]

/-- _getFlatAndSortedSqlList (src/unnamed/part_000 lines 141-158): flatten the
per-entity stores, sort when a priority list is given, and project the SQL
texts. -/
def entityFinal (orderOfOperations : Option (List String))
    (stores : List (List SqlItem)) : List String :=
  let store := stores.flatten
  let sorted :=
    match orderOfOperations with
    | some list => sortByList list store
    | none => store
  sorted.map SqlItem.value

/-- The statements a category actually executes: the deduplicated final list
(empty exactly when the flat list is empty). -/
def categoryStmts (orderOfOperations : Option (List String))
    (stores : List (List SqlItem)) : List String :=
  uniqList (entityFinal orderOfOperations stores)

/-- _supportSeeds (src/unnamed/part_000 line 104): the version comparison
currentVersion at least 9.5, written with cleared denominators so that it
computes. -/
def _supportSeeds (currentVersion : ℚ) : Bool :=
  19 * (currentVersion.den : Int) ≤ 2 * currentVersion.num

/-- _calculateSuccessfulInsets (src/unnamed/part_000 lines 43-47) on the list
branch: the row counts of the executed insert statements are summed. -/
def _calculateSuccessfulInsets (rs : List Nat) : Nat := rs.foldl (· + ·) 0

/-- The state of the executor: the number of queries issued so far, the queries
issued in order, the log messages, and whether the connection was ended. -/
structure ExecSt where
  counter : Nat
  trace : List String
  logs : List String
  ended : Bool
  deriving DecidableEq

/-- The database client behaviour: the result (row count) or error of the n-th
query issued on the connection. -/
def Oracle : Type := Nat → Except String Nat

/-- One client.query call: consumes the next oracle entry and records the
statement in the trace. -/
def runQuery (o : Oracle) (s : String) (st : ExecSt) : Except String Nat × ExecSt :=
  (o st.counter, ⟨st.counter + 1, st.trace ++ [s], st.logs, st.ended⟩)

/-- A logger message. -/
def addLog (st : ExecSt) (m : String) : ExecSt :=
  ⟨st.counter, st.trace, st.logs ++ [m], st.ended⟩

/-- client.end. -/
def setEnded (st : ExecSt) : ExecSt :=
  ⟨st.counter, st.trace, st.logs, true⟩

/-- The sequential execution loop of _entitySync: one query per statement,
stopping at the first failure, whose error propagates. -/
def execList (o : Oracle) : List String → ExecSt → Except String (List Nat) × ExecSt
  | [], st => (.ok [], st)
  | s :: rest, st =>
    match runQuery o s st with
    | (.ok r, st2) =>
      match execList o rest st2 with
      | (.ok rs, st3) => (.ok (r :: rs), st3)
      | (.error e, st3) => (.error e, st3)
    | (.error e, st2) => (.error e, st2)

/-- _entitySync (src/unnamed/part_000 lines 160-175): empty statement list means
false (here none); otherwise the deduplicated statements run sequentially and
the results are returned.  The progress log lines are colour formatting and are
out of scope. -/
def entitySync (o : Oracle) (orderOfOperations : Option (List String))
    (stores : List (List SqlItem)) (st : ExecSt) :
    Except String (Option (List Nat)) × ExecSt :=
  if (entityFinal orderOfOperations stores).isEmpty then (.ok none, st)
  else
    match execList o (uniqList (entityFinal orderOfOperations stores)) st with
    | (.ok rs, st2) => (.ok (some rs), st2)
    | (.error e, st2) => (.error e, st2)

/-- The statements the whole sync run executes between begin and commit, in
order: Sequences, Tables, Extensions (priority sorted), Seeds when the version
supports them, then sequence values. -/
def allStmts (v : ℚ) (seqStores tabStores extStores seedStores valStores :
    List (List SqlItem)) : List String :=
  categoryStmts none seqStores ++ categoryStmts none tabStores ++
    categoryStmts (some extOrderList) extStores ++
    (if _supportSeeds v then categoryStmts none seedStores else []) ++
    categoryStmts none valStores

/-- The try block of sync (src/unnamed/part_000 lines 189-246): the five entity
syncs in order with the version gate around seeds, the does-not-need-updating
report, the commit when a transaction was requested, the success log, and the
connection end. -/
def syncTryBody (o : Oracle) (transaction : Bool) (v : ℚ)
    (seqStores tabStores extStores seedStores valStores : List (List SqlItem))
    (st : ExecSt) : Except String Unit × ExecSt :=
  match entitySync o none seqStores st with
  | (.error e, st1) => (.error e, st1)
  | (.ok q1, st1) =>
    match entitySync o none tabStores st1 with
    | (.error e, st2) => (.error e, st2)
    | (.ok q2, st2) =>
      match entitySync o (some extOrderList) extStores st2 with
      | (.error e, st3) => (.error e, st3)
      | (.ok q3, st3) =>
        let seedStep : Except String (Option Nat) × ExecSt :=
          if _supportSeeds v then
            match entitySync o none seedStores st3 with
            | (.error e, st4) => (.error e, st4)
            | (.ok (some rs), st4) =>
              (.ok (some (_calculateSuccessfulInsets rs)), addLog st4 "Inserted seeds")
            | (.ok none, st4) => (.ok none, st4)
          else (.ok none, addLog st3 "For Seeds need a PostgreSQL v9.5 or more")
        match seedStep with
        | (.error e, st4) => (.error e, st4)
        | (.ok seedCnt, st4) =>
          match entitySync o none valStores st4 with
          | (.error e, st5) => (.error e, st5)
          | (.ok q5, st5) =>
            let needsUpdate := q1.isSome || q2.isSome || q3.isSome ||
              (match seedCnt with
               | some n => n ≠ 0
               | none => false) || q5.isSome
            let st6 :=
              if needsUpdate then st5
              else addLog st5 "Database does not need updating"
            if transaction then
              match runQuery o "commit" st6 with
              | (.error e, st7) => (.error e, st7)
              | (.ok _, st7) => (.ok (), setEnded (addLog st7 "Sync successful!"))
            else (.ok (), setEnded (addLog st6 "Sync successful!"))

/-- The part of sync after the optional begin: the try block with its catch
(src/unnamed/part_000 lines 247-251): on error a rollback is issued when a
transaction was requested, the connection is ended, and the original error is
re-raised; a failing rollback itself propagates instead. -/
def syncAfterBegin (o : Oracle) (transaction : Bool) (v : ℚ)
    (seqStores tabStores extStores seedStores valStores : List (List SqlItem))
    (st : ExecSt) : Except String Unit × ExecSt :=
  match syncTryBody o transaction v seqStores tabStores extStores seedStores valStores st with
  | (.ok _, st2) => (.ok (), st2)
  | (.error e, st2) =>
    if transaction then
      match runQuery o "rollback" st2 with
      | (.error e2, st3) => (.error e2, st3)
      | (.ok _, st3) => (.error e, setEnded st3)
    else (.error e, setEnded st2)

/-- sync (src/unnamed/part_000 lines 177-252): the version query, the start
log, the optional begin, and the guarded body.  The version value parsed from
the query row is the parameter v; the per-entity change computation results are
the store parameters. -/
def syncRun (o : Oracle) (transaction : Bool) (v : ℚ)
    (seqStores tabStores extStores seedStores valStores : List (List SqlItem))
    (st0 : ExecSt) : Except String Unit × ExecSt :=
  match runQuery o "select version()" st0 with
  | (.error e, st) => (.error e, st)
  | (.ok _, st) =>
    let st := addLog st "Sync started"
    if transaction then
      match runQuery o "begin" st with
      | (.error e, st2) => (.error e, st2)
      | (.ok _, st2) =>
        syncAfterBegin o transaction v seqStores tabStores extStores seedStores valStores st2
    else syncAfterBegin o transaction v seqStores tabStores extStores seedStores valStores st

/-- One priority bucket of the stable sort: the operations with a given tag,
in their original flattened order. -/
def opFilter (flat : List SqlItem) (t : String) : List SqlItem :=
  flat.filter (fun x => x.operation == t)

/-- The operations whose tag is not in the Extensions priority list. -/
def extUnlisted (flat : List SqlItem) : List SqlItem :=
  flat.filter (fun x => !(extOrderList.contains x.operation))

theorem quoteLoop_eq (l : List Char) : ∀ hb acc,
    quoteLoop l hb acc = (hb || l.contains '\\', acc ++ escChars l) := by
  induction l with
  | nil => intro hb acc; simp [quoteLoop, escChars]
  | cons c rest ih =>
    intro hb acc
    by_cases h1 : c = '\x27'
    · subst h1
      simp [quoteLoop, escChars, ih, List.append_assoc]
    · by_cases h2 : c = '\\'
      · subst h2
        simp [quoteLoop, escChars, h1, ih, List.append_assoc]
      · have h2s : ('\\' : Char) ≠ c := fun h => h2 h.symm
        simp [quoteLoop, escChars, h1, h2, h2s, ih, List.append_assoc]

theorem quoteLiteral_chars (s : String) :
    quoteLiteral s =
      String.mk ((if '\\' ∈ s.data then ['E'] else []) ++
        '\x27' :: (escChars s.data ++ ['\x27'])) := by
  unfold quoteLiteral
  rw [quoteLoop_eq]
  by_cases h : '\\' ∈ s.data
  · simp [h]
  · simp [h]

/-- C1: quoteLiteral wraps its input in single quotes with every interior single
quote doubled and every backslash doubled, and the result carries an E prefix if
and only if the input contained at least one backslash; quoteLiteral of O Brien
(with an interior quote) equals the doubled-quote form, and quoteLiteral of a
string with a backslash starts with E followed by a quote and doubles the
backslash. -/
theorem C1_quoteLiteral :
    (∀ s : String,
      quoteLiteral s =
        String.mk ((if '\\' ∈ s.data then ['E'] else []) ++
          '\x27' :: (escChars s.data ++ ['\x27']))) ∧
    (∀ s : String, (quoteLiteral s).data.head? = some 'E' ↔ '\\' ∈ s.data) ∧
    quoteLiteral "O\x27Brien" = "\x27O\x27\x27Brien\x27" ∧
    quoteLiteral "a\\b" = "E\x27a\\\\b\x27" ∧
    (quoteLiteral "a\\b").data.take 2 = ['E', '\x27'] ∧
    ['\\', '\\'] <:+: (quoteLiteral "a\\b").data := by
  refine ⟨quoteLiteral_chars, fun s => ?_, by decide, by decide, by decide, ?_⟩
  · rw [quoteLiteral_chars]
    by_cases h : '\\' ∈ s.data
    · simp [h]
    · simp [h]
  · exact ⟨['E', '\x27', 'a'], ['b', '\x27'], by decide⟩

theorem ne_of_toNat_ne {c d : Char} (h : c.toNat ≠ d.toNat) : c ≠ d :=
  fun he => h (by rw [he])

theorem isDigitCh_toNat {c : Char} (h : isDigitCh c = true) :
    48 ≤ c.toNat ∧ c.toNat ≤ 57 := by
  simpa [isDigitCh] using h

theorem digitChar_toNat {n : Nat} (h : n < 10) : (digitChar n).toNat = 48 + n := by
  interval_cases n <;> decide

theorem isDigitCh_digitChar {n : Nat} (h : n < 10) : isDigitCh (digitChar n) = true := by
  interval_cases n <;> decide

theorem digit_ne_key {c : Char} (h : isDigitCh c = true) :
    c ≠ 'n' ∧ c ≠ 't' ∧ c ≠ 'f' ∧ c ≠ '"' ∧ c ≠ '-' ∧ c ≠ '\x7b' := by
  obtain ⟨h1, h2⟩ := isDigitCh_toNat h
  refine ⟨ne_of_toNat_ne ?_, ne_of_toNat_ne ?_, ne_of_toNat_ne ?_,
    ne_of_toNat_ne ?_, ne_of_toNat_ne ?_, ne_of_toNat_ne ?_⟩
  · have hd : ('n' : Char).toNat = 110 := by decide
    omega
  · have hd : ('t' : Char).toNat = 116 := by decide
    omega
  · have hd : ('f' : Char).toNat = 102 := by decide
    omega
  · have hd : ('"' : Char).toNat = 34 := by decide
    omega
  · have hd : ('-' : Char).toNat = 45 := by decide
    omega
  · have hd : ('\x7b' : Char).toNat = 123 := by decide
    omega

theorem takeWhile_append_of {α : Type} {p : α → Bool} :
    ∀ (xs ys : List α), (∀ c ∈ xs, p c = true) →
      (∀ y, ys.head? = some y → p y = false) →
      (xs ++ ys).takeWhile p = xs := by
  intro xs
  induction xs with
  | nil =>
    intro ys _ hys
    cases ys with
    | nil => simp
    | cons y t =>
      have := hys y rfl
      simp [List.takeWhile, this]
  | cons x xs ih =>
    intro ys hxs hys
    have hx : p x = true := hxs x (by simp)
    simp [List.takeWhile, hx]
    exact ih ys (fun c hc => hxs c (by simp [hc])) hys

theorem dropWhile_append_of {α : Type} {p : α → Bool} :
    ∀ (xs ys : List α), (∀ c ∈ xs, p c = true) →
      (∀ y, ys.head? = some y → p y = false) →
      (xs ++ ys).dropWhile p = ys := by
  intro xs
  induction xs with
  | nil =>
    intro ys _ hys
    cases ys with
    | nil => simp
    | cons y t =>
      have := hys y rfl
      simp [List.dropWhile, this]
  | cons x xs ih =>
    intro ys hxs hys
    have hx : p x = true := hxs x (by simp)
    simp [List.dropWhile, hx]
    exact ih ys (fun c hc => hxs c (by simp [hc])) hys

theorem spanDigits_append {xs ys : List Char}
    (hxs : ∀ c ∈ xs, isDigitCh c = true)
    (hys : ∀ y, ys.head? = some y → isDigitCh y = false) :
    spanDigits (xs ++ ys) = (xs, ys) := by
  unfold spanDigits
  rw [List.span_eq_take_drop, takeWhile_append_of xs ys hxs hys,
    dropWhile_append_of xs ys hxs hys]

theorem digitsToNat_concat (xs : List Char) (d : Char) :
    digitsToNat (xs ++ [d]) = 10 * digitsToNat xs + (d.toNat - 48) := by
  simp [digitsToNat, List.foldl_append]

theorem natToCharsAux_spec : ∀ (f n : Nat), n < f →
    digitsToNat (natToCharsAux f n) = n ∧ natToCharsAux f n ≠ [] ∧
      ∀ c ∈ natToCharsAux f n, isDigitCh c = true := by
  intro f
  induction f with
  | zero => intro n hn; omega
  | succ f ih =>
    intro n hn
    by_cases h10 : n < 10
    · refine ⟨?_, by simp [natToCharsAux, h10], ?_⟩
      · simp only [natToCharsAux, h10, if_true]
        simp [digitsToNat, digitChar_toNat h10]
      · intro c hc
        simp [natToCharsAux, h10] at hc
        subst hc
        exact isDigitCh_digitChar h10
    · have hdiv : n / 10 < f := by omega
      obtain ⟨ih1, ih2, ih3⟩ := ih (n / 10) hdiv
      refine ⟨?_, by simp [natToCharsAux, h10], ?_⟩
      · rw [natToCharsAux]
        simp only [h10, if_false]
        rw [digitsToNat_concat, ih1, digitChar_toNat (by omega)]
        omega
      · intro c hc
        rw [natToCharsAux] at hc
        simp only [h10, if_false, List.mem_append, List.mem_singleton] at hc
        rcases hc with hc | hc
        · exact ih3 c hc
        · subst hc
          exact isDigitCh_digitChar (by omega)

theorem natToChars_spec (n : Nat) :
    digitsToNat (natToChars n) = n ∧ natToChars n ≠ [] ∧
      ∀ c ∈ natToChars n, isDigitCh c = true :=
  natToCharsAux_spec (n + 1) n (by omega)

theorem string_mk_data (s : String) : String.mk s.data = s := rfl

theorem parseJStr_round : ∀ (k : List Char) (rest : List Char),
    (∀ c ∈ k, c ≠ '"' ∧ c ≠ '\\') →
    parseJStrData (k ++ '"' :: rest) = some (k, rest) := by
  intro k
  induction k with
  | nil =>
    intro rest _
    rw [parseJStrData.eq_def]
    simp
  | cons c k ih =>
    intro rest hk
    obtain ⟨hc1, hc2⟩ := hk c (by simp)
    have ihr := ih rest (fun x hx => hk x (by simp [hx]))
    rw [parseJStrData.eq_def]
    simp [hc1, hc2, ihr]

theorem jsonEscape_eq_flatMap (l : List Char) : jsonEscape l = l.flatMap escOneChar := rfl

theorem jsonEscape_clean : ∀ l : List Char, '\\' ∉ jsonEscape l →
    jsonEscape l = l ∧ '"' ∉ l ∧ '\\' ∉ l := by
  intro l
  induction l with
  | nil => intro _; simp [jsonEscape]
  | cons c r ih =>
    intro h
    rw [jsonEscape_eq_flatMap, List.flatMap_cons, ← jsonEscape_eq_flatMap] at h
    by_cases h1 : c = '"'
    · exfalso; apply h; simp [escOneChar, h1]
    · by_cases h2 : c = '\\'
      · exfalso; apply h; simp [escOneChar, h1, h2]
      · by_cases h3 : c = '\n'
        · exfalso; apply h; simp [escOneChar, h1, h2, h3]
        · by_cases h4 : c = '\r'
          · exfalso; apply h; simp [escOneChar, h1, h2, h3, h4]
          · by_cases h5 : c = '\t'
            · exfalso; apply h; simp [escOneChar, h1, h2, h3, h4, h5]
            · by_cases h6 : c.val = 8
              · exfalso; apply h; simp [escOneChar, h1, h2, h3, h4, h5, h6]
              · by_cases h7 : c.val = 12
                · exfalso; apply h; simp [escOneChar, h1, h2, h3, h4, h5, h6, h7]
                · by_cases h8 : c.val < 32
                  · exfalso; apply h
                    simp [escOneChar, h1, h2, h3, h4, h5, h6, h7, h8]
                  · have hesc : escOneChar c = [c] := by
                      simp [escOneChar, h1, h2, h3, h4, h5, h6, h7, h8]
                    rw [hesc] at h
                    simp only [List.cons_append, List.nil_append, List.mem_cons,
                      not_or] at h
                    obtain ⟨hc, hr⟩ := h
                    obtain ⟨ihe, ihq, ihb⟩ := ih hr
                    rw [jsonEscape_eq_flatMap, List.flatMap_cons, ← jsonEscape_eq_flatMap,
                      hesc, ihe]
                    refine ⟨rfl, ?_, ?_⟩
                    · intro hmem
                      rcases List.mem_cons.mp hmem with he | he
                      · exact h1 he.symm
                      · exact ihq he
                    · intro hmem
                      rcases List.mem_cons.mp hmem with he | he
                      · exact hc he
                      · exact ihb he

theorem cleanData_append {l1 l2 : List Char} :
    cleanData (l1 ++ l2) ↔ cleanData l1 ∧ cleanData l2 := by
  constructor
  · intro h
    exact ⟨fun c hc => h c (List.mem_append.mpr (Or.inl hc)),
      fun c hc => h c (List.mem_append.mpr (Or.inr hc))⟩
  · rintro ⟨h1, h2⟩ c hc
    rcases List.mem_append.mp hc with hc | hc
    · exact h1 c hc
    · exact h2 c hc

theorem cleanData_cons {c : Char} {l : List Char} :
    cleanData (c :: l) ↔ (c ≠ '\x27' ∧ c ≠ '\\' ∧ isLineTerm c = false) ∧ cleanData l := by
  constructor
  · intro h
    exact ⟨h c (by simp), fun x hx => h x (by simp [hx])⟩
  · rintro ⟨h1, h2⟩ x hx
    rcases List.mem_cons.mp hx with hx | hx
    · subst hx; exact h1
    · exact h2 x hx

theorem natToChars_length_pos (n : Nat) : 1 ≤ (natToChars n).length := by
  have h := (natToChars_spec n).2.1
  cases hnc : natToChars n with
  | nil => exact absurd hnc h
  | cons a t => simp

mutual

theorem sizeJ_le_len : ∀ j : Json, sizeJ j ≤ (jsonStringifyData j).length := by
  intro j
  cases j with
  | jnull => simp [sizeJ, jsonStringifyData]
  | jbool b => cases b <;> simp [sizeJ, jsonStringifyData]
  | jnum n =>
    have h := natToChars_length_pos n.natAbs
    simp only [sizeJ, jsonStringifyData, intToChars]
    by_cases hn : n < 0
    · simp only [hn, if_true]
      simp
    · simp only [hn, if_false]
      omega
  | jstr s =>
    simp [sizeJ, jsonStringifyData]
  | jobj fs =>
    have h := sizeJF_le_len fs
    simp only [sizeJ, jsonStringifyData]
    simp
    omega

theorem sizeJF_le_len : ∀ fs : JFields, sizeJF fs ≤ (jsonFieldsData fs).length + 1 := by
  intro fs
  cases fs with
  | fnil => simp [sizeJF, jsonFieldsData]
  | fcons k v tail =>
    cases tail with
    | fnil =>
      have hv := sizeJ_le_len v
      simp only [sizeJF, jsonFieldsData]
      simp
      omega
    | fcons k2 v2 t2 =>
      have hv := sizeJ_le_len v
      have ht := sizeJF_le_len (.fcons k2 v2 t2)
      simp only [sizeJF] at ht ⊢
      simp only [jsonFieldsData]
      simp at ht ⊢
      omega

end

theorem cleanData_no_bs {l : List Char} (h : cleanData l) : '\\' ∉ l :=
  fun hmem => (h '\\' hmem).2.1 rfl

mutual

theorem parseJ_stringify : ∀ (j : Json) (f : Nat) (rest : List Char),
    sizeJ j ≤ f → cleanData (jsonStringifyData j) →
    (∀ d, rest.head? = some d → isDigitCh d = false) →
    parseJ f (jsonStringifyData j ++ rest) = some (j, rest) := by
  intro j f rest hf hclean hrest
  cases j with
  | jnull =>
    cases f with
    | zero => simp [sizeJ] at hf
    | succ f =>
      rw [parseJ.eq_def]
      simp [jsonStringifyData, parseLitNull]
  | jbool b =>
    cases f with
    | zero => simp [sizeJ] at hf
    | succ f =>
      cases b
      · rw [parseJ.eq_def]
        simp [jsonStringifyData, parseLitFalse, show ¬('f' : Char) = 'n' by decide,
          show ¬('f' : Char) = 't' by decide]
      · rw [parseJ.eq_def]
        simp [jsonStringifyData, parseLitTrue, show ¬('t' : Char) = 'n' by decide]
  | jnum n =>
    cases f with
    | zero => simp [sizeJ] at hf
    | succ f =>
      obtain ⟨hval, hne, hdig⟩ := natToChars_spec n.natAbs
      have hspan : spanDigits (natToChars n.natAbs ++ rest) = (natToChars n.natAbs, rest) :=
        spanDigits_append hdig hrest
      by_cases hn : n < 0
      · have hstr : jsonStringifyData (.jnum n) = '-' :: natToChars n.natAbs := by
          simp [jsonStringifyData, intToChars, hn]
        rw [hstr]
        cases hnc : natToChars n.natAbs with
        | nil => exact absurd hnc hne
        | cons a t =>
          rw [hnc] at hspan
          rw [parseJ.eq_def]
          simp [show ¬('-' : Char) = 'n' by decide, show ¬('-' : Char) = 't' by decide,
            show ¬('-' : Char) = 'f' by decide, show ¬('-' : Char) = '"' by decide]
          unfold parseNegNum
          rw [← List.cons_append, hspan]
          simp
          rw [← hnc, hval]
          omega
      · have hstr : jsonStringifyData (.jnum n) = natToChars n.natAbs := by
          simp [jsonStringifyData, intToChars, hn]
        rw [hstr]
        cases hnc : natToChars n.natAbs with
        | nil => exact absurd hnc hne
        | cons a t =>
          rw [hnc] at hspan
          have ha : isDigitCh a = true := by
            apply hdig
            rw [hnc]
            simp
          obtain ⟨ha1, ha2, ha3, ha4, ha5, ha6⟩ := digit_ne_key ha
          rw [parseJ.eq_def]
          simp [ha1, ha2, ha3, ha4, ha5, ha6, ha]
          unfold parsePosNum
          rw [← List.cons_append, hspan]
          simp
          rw [← hnc, hval]
          omega
  | jstr s =>
    cases f with
    | zero => simp [sizeJ] at hf
    | succ f =>
      have hstr : jsonStringifyData (.jstr s) = '"' :: (jsonEscape s.data ++ ['"']) := rfl
      rw [hstr] at hclean
      rw [cleanData_cons, cleanData_append] at hclean
      have hbs : '\\' ∉ jsonEscape s.data := cleanData_no_bs hclean.2.1
      obtain ⟨hesc, hq, hbs2⟩ := jsonEscape_clean s.data hbs
      have hkstr := parseJStr_round s.data rest
        (fun c hc => ⟨fun he => hq (he ▸ hc), fun he => hbs2 (he ▸ hc)⟩)
      rw [hstr]
      rw [parseJ.eq_def]
      simp only [hesc, List.cons_append, List.append_assoc, List.singleton_append]
      simp [show ¬('"' : Char) = 'n' by decide, show ¬('"' : Char) = 't' by decide,
        show ¬('"' : Char) = 'f' by decide, hkstr, string_mk_data]
  | jobj fs =>
    cases fs with
    | fnil =>
      cases f with
      | zero => simp [sizeJ] at hf
      | succ f =>
        rw [parseJ.eq_def]
        simp [jsonStringifyData, jsonFieldsData,
          show ¬('\x7b' : Char) = 'n' by decide, show ¬('\x7b' : Char) = 't' by decide,
          show ¬('\x7b' : Char) = 'f' by decide, show ¬('\x7b' : Char) = '"' by decide,
          show ¬('\x7b' : Char) = '-' by decide]
    | fcons k v tail =>
      cases f with
      | zero =>
        simp [sizeJ] at hf
      | succ f =>
        have hfsz : sizeJF (.fcons k v tail) ≤ f := by
          simp only [sizeJ] at hf
          omega
        have hstr : jsonStringifyData (.jobj (.fcons k v tail)) =
            '\x7b' :: (jsonFieldsData (.fcons k v tail) ++ ['\x7d']) := rfl
        rw [hstr] at hclean
        rw [cleanData_cons, cleanData_append] at hclean
        have hrec := parseJFs_stringify (.fcons k v tail) f rest (by simp) hfsz hclean.2.1
        have hhead : ∃ rfd, jsonFieldsData (.fcons k v tail) = '"' :: rfd := by
          cases tail <;> exact ⟨_, rfl⟩
        obtain ⟨rfd, hrfd⟩ := hhead
        rw [hstr]
        rw [parseJ.eq_def]
        simp only [List.cons_append, List.append_assoc, List.singleton_append]
        rw [hrfd] at hrec ⊢
        simp only [List.cons_append] at hrec ⊢
        simp [show ¬('\x7b' : Char) = 'n' by decide, show ¬('\x7b' : Char) = 't' by decide,
          show ¬('\x7b' : Char) = 'f' by decide, show ¬('\x7b' : Char) = '"' by decide,
          show ¬('\x7b' : Char) = '-' by decide, hrec]

theorem parseJFs_stringify : ∀ (fs : JFields) (f : Nat) (rest : List Char),
    fs ≠ .fnil → sizeJF fs ≤ f → cleanData (jsonFieldsData fs) →
    parseJFs f (jsonFieldsData fs ++ '\x7d' :: rest) = some (fs, rest) := by
  intro fs f rest hne hf hclean
  cases fs with
  | fnil => exact absurd rfl hne
  | fcons k v tail =>
    cases f with
    | zero =>
      have hv : 1 ≤ sizeJ v := by cases v <;> simp [sizeJ]
      simp only [sizeJF] at hf
      omega
    | succ f =>
      cases tail with
      | fnil =>
        have hstr : jsonFieldsData (.fcons k v .fnil) =
            '"' :: (jsonEscape k.data ++ '"' :: ':' :: jsonStringifyData v) := rfl
        rw [hstr] at hclean
        rw [cleanData_cons, cleanData_append, cleanData_cons, cleanData_cons] at hclean
        have hbs : '\\' ∉ jsonEscape k.data := cleanData_no_bs hclean.2.1
        obtain ⟨hesc, hq, hbs2⟩ := jsonEscape_clean k.data hbs
        have hkstr := parseJStr_round k.data
          (':' :: (jsonStringifyData v ++ '\x7d' :: rest))
          (fun c hc => ⟨fun he => hq (he ▸ hc), fun he => hbs2 (he ▸ hc)⟩)
        have hfuel : sizeJ v ≤ f := by
          simp only [sizeJF] at hf
          omega
        have hv := parseJ_stringify v f ('\x7d' :: rest) hfuel hclean.2.2.2.2
          (fun d hd => by
            simp at hd
            rw [← hd]
            decide)
        rw [hstr]
        rw [parseJFs.eq_def]
        simp only [hesc, List.cons_append, List.append_assoc, List.cons_append,
          List.nil_append]
        simp [hkstr, hv, string_mk_data]
      | fcons k2 v2 t2 =>
        have hstr : jsonFieldsData (.fcons k v (.fcons k2 v2 t2)) =
            '"' :: (jsonEscape k.data ++ '"' :: ':' :: jsonStringifyData v) ++
              ',' :: jsonFieldsData (.fcons k2 v2 t2) := rfl
        rw [hstr] at hclean
        rw [List.cons_append, cleanData_cons, cleanData_append, cleanData_append,
          cleanData_cons, cleanData_cons] at hclean
        have hbs : '\\' ∉ jsonEscape k.data := cleanData_no_bs hclean.2.1.1
        obtain ⟨hesc, hq, hbs2⟩ := jsonEscape_clean k.data hbs
        have hkstr := parseJStr_round k.data
          (':' :: (jsonStringifyData v ++
            (',' :: (jsonFieldsData (.fcons k2 v2 t2) ++ '\x7d' :: rest))))
          (fun c hc => ⟨fun he => hq (he ▸ hc), fun he => hbs2 (he ▸ hc)⟩)
        have hfuel : sizeJ v ≤ f := by
          simp only [sizeJF] at hf
          have hv2 : 1 ≤ sizeJF (.fcons k2 v2 t2) := by
            have : 1 ≤ sizeJ v2 := by cases v2 <;> simp [sizeJ]
            simp only [sizeJF]
            omega
          omega
        have hv := parseJ_stringify v f
          (',' :: (jsonFieldsData (.fcons k2 v2 t2) ++ '\x7d' :: rest))
          hfuel hclean.2.1.2.2.2
          (fun d hd => by
            simp at hd
            rw [← hd]
            decide)
        have hfuel2 : sizeJF (.fcons k2 v2 t2) ≤ f := by
          simp only [sizeJF] at hf ⊢
          have hv1 : 1 ≤ sizeJ v := by cases v <;> simp [sizeJ]
          omega
        have hrec := parseJFs_stringify (.fcons k2 v2 t2) f rest (by simp) hfuel2
          (cleanData_cons.mp hclean.2.2).2
        rw [hstr]
        rw [parseJFs.eq_def]
        simp only [hesc, List.cons_append, List.append_assoc, List.cons_append,
          List.nil_append]
        simp [hkstr, hv, hrec, string_mk_data]

end

theorem jsonParse_stringify {j : Json} (h : cleanData (jsonStringifyData j)) :
    jsonParse (jsonStringify j) = some j := by
  unfold jsonParse jsonStringify
  have hp := parseJ_stringify j ((jsonStringifyData j).length + 1) []
    (le_trans (sizeJ_le_len j) (by omega)) h (by simp)
  rw [List.append_nil] at hp
  simp only [string_mk_data]
  rw [hp]

theorem escChars_id {l : List Char} (h : ∀ c ∈ l, c ≠ '\x27' ∧ c ≠ '\\') :
    escChars l = l := by
  induction l with
  | nil => rfl
  | cons c t ih =>
    obtain ⟨h1, h2⟩ := h c (by simp)
    have : escChars (c :: t) = (if c = '\x27' ∨ c = '\\' then [c, c] else [c]) ++ escChars t := by
      simp [escChars]
    rw [this, ih (fun x hx => h x (by simp [hx]))]
    simp [h1, h2]

theorem quoteLiteral_clean {s : String} (h : cleanData s.data) :
    quoteLiteral s = String.mk ('\x27' :: (s.data ++ ['\x27'])) := by
  rw [quoteLiteral_chars]
  have hbs : '\\' ∉ s.data := cleanData_no_bs h
  have hesc : escChars s.data = s.data :=
    escChars_id (fun c hc => ⟨(h c hc).1, (h c hc).2.1⟩)
  simp [hbs, hesc]

theorem extractQuoted_wrap {l : List Char} (h : ∀ c ∈ l, isLineTerm c = false) :
    extractQuoted ('\x27' :: (l ++ ['\x27'])) = some l := by
  rw [extractQuoted.eq_def]
  simp [List.getLast?_concat, List.dropLast_concat]
  exact h

theorem decode_encode_obj (ty : String) (fs : JFields)
    (hty : getTypeGroup ty = some .json)
    (hclean : cleanData (jsonStringifyData (.jobj fs))) :
    decodeValue (encodeValue (.obj fs)) ty = some (.obj fs) := by
  have hdata : (jsonStringify (.jobj fs)).data = jsonStringifyData (.jobj fs) := rfl
  have hql := @quoteLiteral_clean (jsonStringify (.jobj fs)) (hdata ▸ hclean)
  have hjp : jsonParse (String.mk (jsonStringifyData (Json.jobj fs))) = some (Json.jobj fs) :=
    jsonParse_stringify hclean
  have hext := @extractQuoted_wrap (jsonStringifyData (.jobj fs))
    (fun c hc => (hclean c hc).2.2)
  show decodeValue (.str (quoteLiteral (jsonStringify (.jobj fs)))) ty = some (.obj fs)
  rw [hql]
  rw [decodeValue.eq_def]
  simp [hty, hdata, hext, hjp, toJsValue]

theorem decode_encode_str (ty s : String)
    (hty : getTypeGroup ty = none)
    (hsuf : "::sql".data.isSuffixOf s.data = false)
    (hclean : cleanData s.data) :
    decodeValue (encodeValue (.str s)) ty = some (.str s) := by
  have henc : encodeValue (.str s) = .str (quoteLiteral s) := by
    rw [encodeValue.eq_def]
    simp [hsuf]
  have hext := @extractQuoted_wrap s.data (fun c hc => (hclean c hc).2.2)
  rw [henc, quoteLiteral_clean hclean]
  rw [decodeValue.eq_def]
  simp [hty, hext, string_mk_data]

/-- C2 counterexample: the string O Brien does not end in the raw suffix and
contains no backslash, yet decoding its encoding under a default-group type
yields the string with the interior quote doubled, not the original. -/
theorem C2_counterexample :
    decodeValue (encodeValue (.str "O\x27Brien")) "text" = some (.str "O\x27\x27Brien") ∧
    JsValue.str "O\x27\x27Brien" ≠ JsValue.str "O\x27Brien" ∧
    "::sql".data.isSuffixOf ("O\x27Brien" : String).data = false ∧
    '\\' ∉ ("O\x27Brien" : String).data ∧
    getTypeGroup "text" = none := by
  decide

/-- C2 amended: encodeValue and decodeValue are inverse on every number and every
boolean (for any type), on JSON objects of the JSON group whose serialised text
contains no single quote, backslash or line terminator, and on plain strings of
the default group that do not end in the raw suffix and contain no single quote,
backslash or line terminator.  (As the counterexample shows, a plain string
containing a single quote is not recovered: the quote comes back doubled.) -/
theorem C2_roundtrip_amended :
    (∀ (ty : String) (n : Int), decodeValue (encodeValue (.num n)) ty = some (.num n)) ∧
    (∀ (ty : String) (b : Bool), decodeValue (encodeValue (.bool b)) ty = some (.bool b)) ∧
    (∀ (ty : String) (fs : JFields), getTypeGroup ty = some .json →
      cleanData (jsonStringifyData (.jobj fs)) →
      decodeValue (encodeValue (.obj fs)) ty = some (.obj fs)) ∧
    (∀ (ty s : String), getTypeGroup ty = none →
      "::sql".data.isSuffixOf s.data = false →
      cleanData s.data →
      decodeValue (encodeValue (.str s)) ty = some (.str s)) := by
  refine ⟨fun ty n => rfl, fun ty b => rfl, decode_encode_obj, decode_encode_str⟩

/-- C2 witness: the amended round trip at concrete representatives, one per type
group. -/
theorem C2_witness :
    decodeValue (encodeValue (.num 5)) "integer" = some (.num 5) ∧
    decodeValue (encodeValue (.bool true)) "boolean" = some (.bool true) ∧
    (getTypeGroup "json" = some TypeGroup.json ∧
      cleanData (jsonStringifyData (.jobj (.fcons "a" (.jnum 1) .fnil))) ∧
      decodeValue (encodeValue (.obj (.fcons "a" (.jnum 1) .fnil))) "json" =
        some (.obj (.fcons "a" (.jnum 1) .fnil))) ∧
    (getTypeGroup "text" = none ∧
      "::sql".data.isSuffixOf ("hello" : String).data = false ∧
      cleanData ("hello" : String).data ∧
      decodeValue (encodeValue (.str "hello")) "text" = some (.str "hello")) := by
  refine ⟨C2_roundtrip_amended.1 "integer" 5, C2_roundtrip_amended.2.1 "boolean" true,
    ⟨by decide, by decide,
      C2_roundtrip_amended.2.2.1 "json" (.fcons "a" (.jnum 1) .fnil) (by decide) (by decide)⟩,
    ⟨by decide, by decide, by decide,
      C2_roundtrip_amended.2.2.2 "text" "hello" (by decide) (by decide) (by decide)⟩⟩

/-- C9 counterexample: with no caller cleanable object the normalized policy has
no boolean at all for the index variant, so it does not assign a boolean to each
of the five variants with index defaulting to false. -/
theorem C9_counterexample :
    (_normalizeCleanableObject none).index = none ∧
    ¬ (_normalizeCleanableObject none).index = some false ∧
    (_normalizeCleanableObject none) =
      ⟨none, some true, some false, some false, some false⟩ := by
  decide

/-- C9 amended: the normalized cleanable policy assigns primaryKey true and
foreignKey, unique and check false by default, while the index variant has no
default entry (it is treated as not cleanable only through falsy lookup);
caller-supplied per-variant overrides are merged over these defaults, and with
no caller object the result is exactly the four-entry defaults object. -/
theorem C9_cleanable_amended :
    _normalizeCleanableObject none = _cleanableDefaults ∧
    _cleanableDefaults = ⟨none, some true, some false, some false, some false⟩ ∧
    (∀ inp : CleanableInput,
      _normalizeCleanableObject (some inp) =
        ⟨inp.indexes,
         overrideOpt (some true) inp.primaryKeys,
         overrideOpt (some false) inp.foreignKeys,
         overrideOpt (some false) inp.unique,
         overrideOpt (some false) inp.checks⟩) := by
  refine ⟨rfl, rfl, fun inp => ?_⟩
  cases hin : inp.indexes <;>
    simp [_normalizeCleanableObject, overrideOpt, _cleanableDefaults, hin]

theorem mapSet_mapSet {α : Type} :
    ∀ (reg : List (String × α)) (n : String) (o1 o2 : α),
      mapSet (mapSet reg n o1) n o2 = mapSet reg n o2 := by
  intro reg n o1 o2
  induction reg with
  | nil => simp [mapSet]
  | cons e rest ih =>
    by_cases h : e.1 = n
    · simp [mapSet, h]
    · simp [mapSet, h, ih]

theorem mapGet_mapSet {α : Type} :
    ∀ (reg : List (String × α)) (n : String) (o : α),
      mapGet (mapSet reg n o) n = some o := by
  intro reg n o
  induction reg with
  | nil => simp [mapSet, mapGet]
  | cons e rest ih =>
    by_cases h : e.1 = n
    · simp [mapSet, mapGet, h]
    · simp [mapSet, mapGet, h, ih]

theorem mapSet_keys_subset {α : Type} :
    ∀ (reg : List (String × α)) (n : String) (o : α) (x : String),
      x ∈ (mapSet reg n o).map Prod.fst → x = n ∨ x ∈ reg.map Prod.fst := by
  intro reg n o
  induction reg with
  | nil =>
    intro x hx
    simp [mapSet] at hx
    exact Or.inl hx
  | cons e rest ih =>
    intro x hx
    by_cases h : e.1 = n
    · simp only [mapSet, h, if_true, List.map_cons, List.mem_cons] at hx
      rcases hx with hx | hx
      · exact Or.inl hx
      · exact Or.inr (by simp [hx])
    · simp only [mapSet, h, if_false, List.map_cons, List.mem_cons] at hx
      rcases hx with hx | hx
      · exact Or.inr (by simp [hx])
      · rcases ih x hx with h2 | h2
        · exact Or.inl h2
        · exact Or.inr (by simp [h2])

theorem mapSet_countKey {α : Type} :
    ∀ (reg : List (String × α)) (n : String) (o : α),
      (reg.map Prod.fst).Nodup →
      ((mapSet reg n o).map Prod.fst).count n = 1 ∧
        ((mapSet reg n o).map Prod.fst).Nodup := by
  intro reg n o hnd
  induction reg with
  | nil => simp [mapSet]
  | cons e rest ih =>
    simp only [List.map_cons, List.nodup_cons] at hnd
    by_cases h : e.1 = n
    · rw [mapSet.eq_def]
      simp only [h, if_true]
      constructor
      · simp [List.count_cons]
        rw [h] at hnd
        exact List.count_eq_zero.mpr hnd.1
      · simp only [List.map_cons, List.nodup_cons]
        rw [h] at hnd
        exact hnd
    · obtain ⟨ih1, ih2⟩ := ih hnd.2
      rw [mapSet.eq_def]
      simp only [h, if_false]
      constructor
      · simp only [List.map_cons, List.count_cons]
        have hne : ¬ e.1 = n := h
        simp [hne, ih1]
      · simp only [List.map_cons, List.nodup_cons]
        refine ⟨?_, ih2⟩
        intro hmem
        rcases mapSet_keys_subset rest n o e.1 hmem with h3 | h3
        · exact h h3
        · exact hnd.1 h3

/-- C10: the registry keyed by entity name holds at most one object per name:
defining a second object under an already-registered name replaces the earlier
registration entirely (the two consecutive defines equal a single define of the
latest object), lookup returns the latest object, the key occurs exactly once,
and the value list iterated by a subsequent sync is that of the single latest
registration. -/
theorem C10_define_replaces :
    (∀ (α : Type) (reg : List (String × α)) (n : String) (o1 o2 : α),
      defineObj (defineObj reg n o1) n o2 = defineObj reg n o2) ∧
    (∀ (α : Type) (reg : List (String × α)) (n : String) (o : α),
      mapGet (defineObj reg n o) n = some o) ∧
    (∀ (α : Type) (reg : List (String × α)) (n : String) (o : α),
      (reg.map Prod.fst).Nodup →
      ((defineObj reg n o).map Prod.fst).count n = 1 ∧
        ((defineObj reg n o).map Prod.fst).Nodup) ∧
    (∀ (α : Type) (reg : List (String × α)) (n : String) (o1 o2 : α),
      registryValues (defineObj (defineObj reg n o1) n o2) =
        registryValues (defineObj reg n o2)) := by
  refine ⟨fun α reg n o1 o2 => mapSet_mapSet reg n o1 o2,
    fun α reg n o => mapGet_mapSet reg n o,
    fun α reg n o hnd => mapSet_countKey reg n o hnd,
    fun α reg n o1 o2 => by rw [defineObj, defineObj, mapSet_mapSet]; rfl⟩

/-- C10 witness: replacement of an earlier table registration named users by a
later one, on a concrete two-define run starting from the empty registry. -/
theorem C10_witness :
    ((([] : List (String × Nat)).map Prod.fst).Nodup ∧
      ((defineObj ([] : List (String × Nat)) "users" 7).map Prod.fst).count "users" = 1) ∧
    defineObj (defineObj ([] : List (String × Nat)) "users" 3) "users" 7 =
      defineObj ([] : List (String × Nat)) "users" 7 ∧
    mapGet (defineObj ([] : List (String × Nat)) "users" 7) "users" = some 7 := by
  refine ⟨⟨by simp, (C10_define_replaces.2.2.1 Nat [] "users" 7 (by simp)).1⟩,
    C10_define_replaces.1 Nat [] "users" 3 7,
    C10_define_replaces.2.1 Nat [] "users" 7⟩

theorem parseGroup_mem : ∀ (l r : List Char) (x : Char), parseGroup l = some r →
    x ≠ '[' → x ≠ ']' → isDigitCh x = false → x ∈ l → x ∈ r := by
  intro l r x h hx1 hx2 hx3 hmem
  rw [parseGroup.eq_def] at h
  split at h
  · next rest =>
    split at h
    · next r2 =>
      simp only [Option.some.injEq] at h
      subst h
      rcases List.mem_cons.mp hmem with he | he
      · exact absurd he hx1
      · rcases List.mem_cons.mp he with he2 | he2
        · exact absurd he2 hx2
        · exact he2
    · next hne =>
      simp only [List.span_eq_take_drop] at h
      split at h
      · simp at h
      · next hp1 =>
        split at h
        · next r2 heq =>
          simp only [Option.some.injEq] at h
          subst h
          rcases List.mem_cons.mp hmem with he | he
          · exact absurd he hx1
          · have hsplit := List.takeWhile_append_dropWhile isDigitCh rest
            rw [← hsplit] at he
            rcases List.mem_append.mp he with he2 | he2
            · have := List.mem_takeWhile_imp he2
              rw [hx3] at this
              exact absurd this (by simp)
            · rw [heq] at he2
              rcases List.mem_cons.mp he2 with he3 | he3
              · exact absurd he3 hx2
              · exact he3
        · simp at h
  · simp at h

theorem castGroups_mem : ∀ (n : Nat) (l : List Char) (x : Char),
    x ≠ '[' → x ≠ ']' → isDigitCh x = false → x ∈ l → x ∈ castGroups n l := by
  intro n
  induction n with
  | zero =>
    intro l x _ _ _ h
    simpa [castGroups] using h
  | succ n ih =>
    intro l x hx1 hx2 hx3 hmem
    cases hpg : parseGroup l with
    | none =>
      rw [castGroups.eq_def]
      simp only [hpg]
      exact hmem
    | some r =>
      rw [castGroups.eq_def]
      simp only [hpg]
      exact ih r x hx1 hx2 hx3 (parseGroup_mem l r x hpg hx1 hx2 hx3 hmem)

theorem castTail_false_of_mem {l : List Char} {x : Char}
    (hbad : badCastChar x) (hmem : x ∈ l) : castTail l = false := by
  obtain ⟨hb0, hb1, hb2, hb3⟩ := hbad
  unfold castTail
  simp only [List.span_eq_take_drop]
  rw [decide_eq_false_iff_not]
  rintro ⟨_, h2⟩
  have hx : x ∈ l.dropWhile isCastLetter := by
    have hsp := List.takeWhile_append_dropWhile isCastLetter l
    rw [← hsp] at hmem
    rcases List.mem_append.mp hmem with h | h
    · have := List.mem_takeWhile_imp h
      rw [hb0] at this
      exact absurd this (by simp)
    · exact h
  have := castGroups_mem 2 _ x hb1 hb2 hb3 hx
  rw [h2] at this
  simp at this

theorem castMatchesWhole_eq_false {l : List Char}
    (h : ∀ rest, l = ':' :: ':' :: rest → castTail rest = false) :
    castMatchesWhole l = false := by
  rw [castMatchesWhole.eq_def]
  split
  · next rest => exact h rest rfl
  · rfl

theorem stripCastGo_step {pre : List Char} {c : Char} {rest : List Char}
    (h : castMatchesWhole (c :: rest) = false) :
    stripCastGo pre (c :: rest) = stripCastGo (pre ++ [c]) rest := by
  rw [stripCastGo.eq_def]
  simp [h]

theorem stripCastGo_id : ∀ (l pre : List Char),
    (∀ t, t <:+ l → castMatchesWhole t = false) → stripCastGo pre l = pre ++ l := by
  intro l
  induction l with
  | nil =>
    intro pre h
    rw [stripCastGo.eq_def]
    simp [h [] List.nil_suffix]
  | cons c t ih =>
    intro pre h
    rw [stripCastGo_step (h (c :: t) (List.suffix_refl _)),
      ih (pre ++ [c]) (fun t2 ht2 => h t2 (ht2.trans (List.suffix_cons c t)))]
    simp

theorem castTail_no_colon {w : List Char} (h : castTail w = true) : ':' ∉ w := by
  intro hmem
  have hbad : badCastChar ':' := ⟨by decide, by decide, by decide, by decide⟩
  have hfalse := castTail_false_of_mem hbad hmem
  rw [h] at hfalse
  exact Bool.noConfusion hfalse

theorem stripCastGo_append : ∀ (t pre w : List Char), castTail w = true →
    stripCastGo pre (t ++ ':' :: ':' :: w) = pre ++ t := by
  intro t
  induction t with
  | nil =>
    intro pre w hw
    rw [stripCastGo.eq_def]
    have hcm : castMatchesWhole (':' :: ':' :: w) = castTail w := rfl
    simp [hcm, hw]
  | cons c t' ih =>
    intro pre w hw
    have hbad : badCastChar ':' := ⟨by decide, by decide, by decide, by decide⟩
    have hfalse : castMatchesWhole (c :: (t' ++ ':' :: ':' :: w)) = false := by
      apply castMatchesWhole_eq_false
      intro rest hrest
      have hc : c = ':' ∧ t' ++ ':' :: ':' :: w = ':' :: rest := by
        constructor
        · exact (List.cons.injEq _ _ _ _ ▸ hrest).1
        · exact (List.cons.injEq _ _ _ _ ▸ hrest).2
      have hcount : 2 ≤ (t' ++ ':' :: ':' :: w).count ':' := by
        have h1 : (':' :: ':' :: w : List Char).count ':' = w.count ':' + 2 := by
          simp [List.count_cons]
        have h2 : (t' ++ ':' :: ':' :: w).count ':' =
            t'.count ':' + (':' :: ':' :: w : List Char).count ':' := by
          simp [List.count_append]
        omega
      rw [hc.2] at hcount
      have h3 : (':' :: rest : List Char).count ':' = rest.count ':' + 1 := by
        simp [List.count_cons]
      have hpos : 0 < rest.count ':' := by omega
      exact castTail_false_of_mem hbad (List.count_pos_iff.mp hpos)
    rw [List.cons_append, stripCastGo_step hfalse, ih (pre ++ [c]) w hw]
    simp

theorem stripCast_paren : ∀ (l : List Char), l.getLast? = some ')' →
    stripCastGo [] l = l := by
  intro l hlast
  have h := stripCastGo_id l []
  rw [h]
  · rfl
  · intro t ht
    apply castMatchesWhole_eq_false
    intro rest hrest
    have hbadp : badCastChar ')' := ⟨by decide, by decide, by decide, by decide⟩
    apply castTail_false_of_mem hbadp
    obtain ⟨s, hs⟩ := ht
    subst hrest
    have hne : (':' :: ':' :: rest : List Char) ≠ [] := by simp
    have hlast2 : (':' :: ':' :: rest : List Char).getLast? = some ')' := by
      rw [← hs] at hlast
      rw [List.getLast?_append_of_ne_nil s hne] at hlast
      exact hlast
    cases hr : rest.reverse with
    | nil =>
      rw [List.reverse_eq_nil_iff] at hr
      subst hr
      simp at hlast2
    | cons a tr =>
      have hrest2 : rest = tr.reverse ++ [a] := by
        have := congrArg List.reverse hr
        simpa using this
      subst hrest2
      have : (':' :: ':' :: (tr.reverse ++ [a]) : List Char).getLast? = some a := by
        rw [show (':' :: ':' :: (tr.reverse ++ [a]) : List Char) =
          (':' :: ':' :: tr.reverse) ++ [a] by simp]
        rw [List.getLast?_append_of_ne_nil _ (by simp)]
        simp
      rw [this] at hlast2
      simp at hlast2
      subst hlast2
      simp

theorem insertPublicGo_step : ∀ (pre : List Char) (c : Char) (rest : List Char),
    lbMatches pre = false →
    insertPublicGo pre (c :: rest) = insertPublicGo (pre ++ [c]) rest := by
  intro pre c rest h
  rw [insertPublicGo.eq_def]
  simp [h]

theorem insertPublic_canonical (name tailpart : List Char)
    (hn : '.' ∉ name) (ht : '.' ∉ tailpart) :
    insertPublicGo [] (nextvalMark ++ (name ++ tailpart)) =
      nextvalMark ++ ('p' :: 'u' :: 'b' :: 'l' :: 'i' :: 'c' :: '.' :: (name ++ tailpart)) := by
  have hcont : (name ++ tailpart).contains '.' = false := by
    simp [hn, ht]
  show insertPublicGo []
      ('n' :: 'e' :: 'x' :: 't' :: 'v' :: 'a' :: 'l' :: '(' :: '\x27' :: (name ++ tailpart)) = _
  rw [insertPublicGo_step _ _ _ (by decide), insertPublicGo_step _ _ _ (by decide),
    insertPublicGo_step _ _ _ (by decide), insertPublicGo_step _ _ _ (by decide),
    insertPublicGo_step _ _ _ (by decide), insertPublicGo_step _ _ _ (by decide),
    insertPublicGo_step _ _ _ (by decide), insertPublicGo_step _ _ _ (by decide),
    insertPublicGo_step _ _ _ (by decide)]
  rw [insertPublicGo.eq_def]
  have hlb : lbMatches ['n', 'e', 'x', 't', 'v', 'a', 'l', '(', '\x27'] = true := by decide
  simp [hlb, hn, ht, nextvalMark]

/-- C6: defaultValueInformationSchema maps the catalog rendering of an
unqualified sequence default to the public-qualified form (concrete example and
generally for every dotless name in the canonical nextval shape), strips a
trailing type cast (with optional array-bracket suffixes) exactly when it
terminates the whole expression, and leaves any expression ending in a closing
parenthesis - hence any cast nested inside parentheses - untouched. -/
theorem C6_defaultValueInformationSchema :
    defaultValueInformationSchema (.str "nextval(\x27seq\x27::regclass)") =
      .str "nextval(\x27public.seq\x27::regclass)" ∧
    (∀ name : List Char, '.' ∉ name →
      dvisChars (nextvalMark ++ (name ++ "\x27::regclass)".data)) =
        nextvalMark ++
          ('p' :: 'u' :: 'b' :: 'l' :: 'i' :: 'c' :: '.' ::
            (name ++ "\x27::regclass)".data))) ∧
    (∀ l : List Char, l.getLast? = some ')' → stripCastGo [] l = l) ∧
    (∀ t w : List Char, castTail w = true →
      stripCastGo [] (t ++ ':' :: ':' :: w) = t) := by
  refine ⟨by decide, ?_, stripCast_paren, fun t w hw => stripCastGo_append t [] w hw⟩
  intro name hn
  unfold dvisChars
  rw [insertPublic_canonical name _ hn (by decide)]
  apply stripCast_paren
  have htail : (("\x27::regclass)" : String).data : List Char) ≠ [] := by decide
  rw [show nextvalMark ++
      ('p' :: 'u' :: 'b' :: 'l' :: 'i' :: 'c' :: '.' :: (name ++ "\x27::regclass)".data)) =
      (nextvalMark ++ ('p' :: 'u' :: 'b' :: 'l' :: 'i' :: 'c' :: '.' :: name)) ++
        "\x27::regclass)".data by simp]
  rw [List.getLast?_append_of_ne_nil _ htail]
  decide

/-- C6 witness: the general parts of the theorem evaluated at the name seq, at a
parenthesised expression carrying an inner cast, and at a terminal cast with an
array-bracket suffix. -/
theorem C6_witness :
    ('.' ∉ ("seq" : String).data ∧
      dvisChars (nextvalMark ++ (("seq" : String).data ++ "\x27::regclass)".data)) =
        nextvalMark ++
          ('p' :: 'u' :: 'b' :: 'l' :: 'i' :: 'c' :: '.' ::
            (("seq" : String).data ++ "\x27::regclass)".data))) ∧
    (("(1 + a::int)" : String).data.getLast? = some ')' ∧
      stripCastGo [] ("(1 + a::int)" : String).data = ("(1 + a::int)" : String).data) ∧
    (castTail ("int[]" : String).data = true ∧
      stripCastGo [] (("\x27a\x27" : String).data ++ ':' :: ':' :: ("int[]" : String).data) =
        ("\x27a\x27" : String).data) := by
  refine ⟨⟨by decide, C6_defaultValueInformationSchema.2.1 ("seq" : String).data (by decide)⟩,
    ⟨by decide, C6_defaultValueInformationSchema.2.2.1 ("(1 + a::int)" : String).data (by decide)⟩,
    ⟨by decide, C6_defaultValueInformationSchema.2.2.2 ("\x27a\x27" : String).data
      ("int[]" : String).data (by decide)⟩⟩

theorem diff_clause (f : JsValue → String) (x y : JsValue) :
    optClause f (diffField x y) =
      if jsToString x ≠ jsToString y then [f x] else [] := by
  by_cases h : jsToString x ≠ jsToString y
  · simp [diffField, optClause, h]
  · simp [diffField, optClause, h]

theorem seqDiffWithCurrent_fields (a b : SeqAttrs) (c : Bool) :
    (seqDiffWithCurrent a b c).start = diffField a.start b.start ∧
    (seqDiffWithCurrent a b c).min = diffField a.min b.min ∧
    (seqDiffWithCurrent a b c).max = diffField a.max b.max ∧
    (seqDiffWithCurrent a b c).increment = diffField a.increment b.increment ∧
    (seqDiffWithCurrent a b c).cycle = diffField a.cycle b.cycle ∧
    (seqDiffWithCurrent a b c).current =
      (if ((optExists (diffField a.min b.min) || optExists (diffField a.max b.max)) = true ∧
          c = false) then some a.min else none) := by
  unfold seqDiffWithCurrent _getDifference
  by_cases h1 : (optExists (diffField a.min b.min) || optExists (diffField a.max b.max)) = true
  · by_cases h2 : c = false
    · simp [h1, h2]
    · simp [h1, h2]
  · simp [h1]

theorem buildChunks_characterisation (a b : SeqAttrs) (c : Bool) :
    _buildSqlChunks (seqDiffWithCurrent a b c) =
      (if jsToString a.start ≠ jsToString b.start then [startClause a.start] else []) ++
      (if jsToString a.min ≠ jsToString b.min then [minClause a.min] else []) ++
      (if jsToString a.max ≠ jsToString b.max then [maxClause a.max] else []) ++
      (if jsToString a.increment ≠ jsToString b.increment
        then [incrementClause a.increment] else []) ++
      (if jsToString a.cycle ≠ jsToString b.cycle then [cycleClause a.cycle] else []) ++
      (if ((optExists (diffField a.min b.min) || optExists (diffField a.max b.max)) = true ∧
          c = false ∧ isExistV a.min = true)
        then ["restart with " ++ jsToString a.min] else []) := by
  obtain ⟨f1, f2, f3, f4, f5, f6⟩ := seqDiffWithCurrent_fields a b c
  unfold _buildSqlChunks
  rw [f1, f2, f3, f4, f5, f6, diff_clause, diff_clause, diff_clause, diff_clause, diff_clause]
  by_cases h1 : (optExists (diffField a.min b.min) || optExists (diffField a.max b.max)) = true
  · by_cases h2 : c = false
    · by_cases h3 : isExistV a.min = true
      · simp [h1, h2, h3]
      · simp [h1, h2, h3]
    · simp [h1, h2]
  · simp [h1]

theorem ite_singleton_eq_nil {P : Prop} [Decidable P] {x : String}
    (h : (if P then [x] else []) = []) : ¬P := by
  by_cases hp : P
  · rw [if_pos hp] at h
    exact absurd h (by simp)
  · exact hp

/-- C5: for a sequence present in the snapshot with force unset, the emitted
alter statement carries exactly one clause per attribute among start, min, max,
increment and cycle whose desired value differs from the observed one under
String comparison (plus a restart clause exactly when the bounds changed and the
live check failed); no statement is emitted precisely when no attribute differs;
and when only increment differs with desired value 5 the emitted statement is
alter sequence with the single clause increment 5. -/
theorem C5_sequence_diff_minimal :
    (∀ (fullName : String) (a b : SeqAttrs) (c : Bool),
      (alterSequenceChanges fullName a b c = none ↔
        (jsToString a.start = jsToString b.start ∧
         jsToString a.min = jsToString b.min ∧
         jsToString a.max = jsToString b.max ∧
         jsToString a.increment = jsToString b.increment ∧
         jsToString a.cycle = jsToString b.cycle))) ∧
    (∀ (a b : SeqAttrs) (c : Bool),
      _buildSqlChunks (seqDiffWithCurrent a b c) =
        (if jsToString a.start ≠ jsToString b.start then [startClause a.start] else []) ++
        (if jsToString a.min ≠ jsToString b.min then [minClause a.min] else []) ++
        (if jsToString a.max ≠ jsToString b.max then [maxClause a.max] else []) ++
        (if jsToString a.increment ≠ jsToString b.increment
          then [incrementClause a.increment] else []) ++
        (if jsToString a.cycle ≠ jsToString b.cycle then [cycleClause a.cycle] else []) ++
        (if ((optExists (diffField a.min b.min) || optExists (diffField a.max b.max)) = true ∧
            c = false ∧ isExistV a.min = true)
          then ["restart with " ++ jsToString a.min] else [])) ∧
    alterSequenceChanges "public.sq"
      ⟨.num 1, .num 1, .num 100, .num 5, .bool false⟩
      ⟨.str "1", .str "1", .str "100", .str "1", .bool false⟩ true =
      some "alter sequence public.sq increment 5;" ∧
    (_buildSqlChunks (seqDiffWithCurrent
      ⟨.num 1, .num 1, .num 100, .num 5, .bool false⟩
      ⟨.str "1", .str "1", .str "100", .str "1", .bool false⟩ true)).length = 1 ∧
    alterSequenceChanges "public.sq"
      ⟨.num 1, .num 1, .num 100, .num 5, .bool false⟩
      ⟨.str "1", .str "1", .str "100", .str "5", .bool false⟩ true = none := by
  refine ⟨fun fullName a b c => ?_, buildChunks_characterisation, by decide, by decide, by decide⟩
  constructor
  · intro h
    unfold alterSequenceChanges _buildSqlAlter at h
    by_cases hemp : (_buildSqlChunks (seqDiffWithCurrent a b c)).isEmpty = true
    · have hnil : _buildSqlChunks (seqDiffWithCurrent a b c) = [] := by
        simpa [List.isEmpty_iff] using hemp
      rw [buildChunks_characterisation] at hnil
      simp only [List.append_eq_nil] at hnil
      obtain ⟨⟨⟨⟨⟨h1, h2⟩, h3⟩, h4⟩, h5⟩, _⟩ := hnil
      exact ⟨not_not.mp (ite_singleton_eq_nil h1), not_not.mp (ite_singleton_eq_nil h2),
        not_not.mp (ite_singleton_eq_nil h3), not_not.mp (ite_singleton_eq_nil h4),
        not_not.mp (ite_singleton_eq_nil h5)⟩
    · simp only [hemp] at h
      simp at h
  · rintro ⟨h1, h2, h3, h4, h5⟩
    have hnil : _buildSqlChunks (seqDiffWithCurrent a b c) = [] := by
      rw [buildChunks_characterisation]
      simp [h1, h2, h3, h4, h5, diffField, optExists]
    simp [alterSequenceChanges, _buildSqlAlter, hnil]

theorem _supportSeeds_spec (v : ℚ) : _supportSeeds v = true ↔ (9.5 : ℚ) ≤ v := by
  have hd : (0 : ℚ) < (v.den : ℚ) := by exact_mod_cast v.pos
  have h1 : ((9.5 : ℚ) ≤ v) ↔ (19 : ℚ) ≤ 2 * v := by
    rw [show (9.5 : ℚ) = 19/2 by norm_num, div_le_iff₀ (by norm_num : (0:ℚ) < 2), mul_comm]
  have h2 : ((19 : ℚ) ≤ 2 * v) ↔ (19 : ℚ) * v.den ≤ 2 * v * v.den := by
    constructor
    · intro h
      exact mul_le_mul_of_nonneg_right h (le_of_lt hd)
    · intro h
      exact le_of_mul_le_mul_right h hd
  have hden : ((v.den : ℚ)) ≠ 0 := Nat.cast_ne_zero.mpr v.den_nz
  have h3 : v * (v.den : ℚ) = (v.num : ℚ) := by
    calc v * (v.den : ℚ) = ((v.num : ℚ) / (v.den : ℚ)) * (v.den : ℚ) := by
          rw [Rat.num_div_den]
      _ = (v.num : ℚ) := div_mul_cancel₀ _ hden
  rw [h1, h2, mul_assoc, h3]
  simp only [_supportSeeds, decide_eq_true_eq]
  constructor
  · intro h
    exact_mod_cast h
  · intro h
    exact_mod_cast h

theorem execList_ok (o : Oracle) : ∀ (stmts : List String) (st : ExecSt),
    (∀ i, i < stmts.length → ∃ r, o (st.counter + i) = .ok r) →
    ∃ rs, execList o stmts st =
      (.ok rs, ⟨st.counter + stmts.length, st.trace ++ stmts, st.logs, st.ended⟩) := by
  intro stmts
  induction stmts with
  | nil =>
    intro st _
    exact ⟨[], by simp [execList]⟩
  | cons s rest ih =>
    intro st h
    obtain ⟨r, hr⟩ := h 0 (by simp)
    rw [Nat.add_zero] at hr
    obtain ⟨rs, hrest⟩ := ih ⟨st.counter + 1, st.trace ++ [s], st.logs, st.ended⟩
      (fun i hi => by
        obtain ⟨r2, hr2⟩ := h (i + 1) (by simp; omega)
        exact ⟨r2, by rw [show st.counter + 1 + i = st.counter + (i + 1) by omega]; exact hr2⟩)
    refine ⟨r :: rs, ?_⟩
    rw [execList.eq_def]
    simp only [runQuery, hr, hrest]
    have hc : st.counter + 1 + rest.length = st.counter + (s :: rest).length := by
      simp
      omega
    have ht : st.trace ++ [s] ++ rest = st.trace ++ s :: rest := by simp
    rw [hc, ht]

theorem execList_fail (o : Oracle) : ∀ (done : List String) (failStmt : String)
    (rest : List String) (st : ExecSt) (e : String),
    (∀ i, i < done.length → ∃ r, o (st.counter + i) = .ok r) →
    o (st.counter + done.length) = .error e →
    execList o (done ++ failStmt :: rest) st =
      (.error e, ⟨st.counter + done.length + 1, st.trace ++ done ++ [failStmt],
        st.logs, st.ended⟩) := by
  intro done
  induction done with
  | nil =>
    intro failStmt rest st e _ herr
    simp only [List.length_nil, Nat.add_zero] at herr
    rw [List.nil_append, execList.eq_def]
    simp only [runQuery, herr]
    simp
  | cons s done2 ih =>
    intro failStmt rest st e hok herr
    obtain ⟨r, hr⟩ := hok 0 (by simp)
    rw [Nat.add_zero] at hr
    have hrec := ih failStmt rest ⟨st.counter + 1, st.trace ++ [s], st.logs, st.ended⟩ e
      (fun i hi => by
        obtain ⟨r2, hr2⟩ := hok (i + 1) (by simp; omega)
        exact ⟨r2, by rw [show st.counter + 1 + i = st.counter + (i + 1) by omega]; exact hr2⟩)
      (by
        rw [show st.counter + 1 + done2.length = st.counter + (s :: done2).length by simp; omega]
        exact herr)
    rw [List.cons_append, execList.eq_def]
    simp only [runQuery, hr, hrec]
    have hc : st.counter + 1 + done2.length + 1 = st.counter + (s :: done2).length + 1 := by
      simp
      omega
    have ht : st.trace ++ [s] ++ done2 ++ [failStmt] = st.trace ++ (s :: done2) ++ [failStmt] := by
      simp
    rw [hc, ht]

theorem uniqList_eq_nil_iff (l : List String) : uniqList l = [] ↔ l = [] := by
  cases l with
  | nil => simp [uniqList, uniqAux]
  | cons x rest => simp [uniqList, uniqAux]

theorem entitySync_ok (o : Oracle) (oo : Option (List String))
    (ss : List (List SqlItem)) (st : ExecSt)
    (h : ∀ i, i < (categoryStmts oo ss).length → ∃ r, o (st.counter + i) = .ok r) :
    ∃ q, entitySync o oo ss st =
      (.ok q, ⟨st.counter + (categoryStmts oo ss).length,
        st.trace ++ categoryStmts oo ss, st.logs, st.ended⟩) := by
  obtain ⟨c, t, lg, en⟩ := st
  unfold entitySync
  by_cases hemp : (entityFinal oo ss).isEmpty = true
  · have hnil : categoryStmts oo ss = [] := by
      unfold categoryStmts
      rw [(uniqList_eq_nil_iff _).mpr (List.isEmpty_iff.mp hemp)]
    refine ⟨none, ?_⟩
    simp [hemp, hnil]
  · obtain ⟨rs, hexec⟩ := execList_ok o (categoryStmts oo ss) ⟨c, t, lg, en⟩ h
    refine ⟨some rs, ?_⟩
    rw [show (entityFinal oo ss).isEmpty = false from by
      cases he : (entityFinal oo ss).isEmpty
      · rfl
      · exact absurd he hemp]
    simp only [Bool.false_eq_true, if_false]
    unfold categoryStmts at hexec
    rw [hexec]
    rfl

theorem entitySync_fail (o : Oracle) (oo : Option (List String))
    (ss : List (List SqlItem)) (st : ExecSt) (e : String)
    (done : List String) (failStmt : String) (rest : List String)
    (hsplit : categoryStmts oo ss = done ++ failStmt :: rest)
    (hok : ∀ i, i < done.length → ∃ r, o (st.counter + i) = .ok r)
    (herr : o (st.counter + done.length) = .error e) :
    entitySync o oo ss st =
      (.error e, ⟨st.counter + done.length + 1, st.trace ++ done ++ [failStmt],
        st.logs, st.ended⟩) := by
  unfold entitySync
  have hne : (entityFinal oo ss).isEmpty = false := by
    cases he : (entityFinal oo ss).isEmpty
    · rfl
    · exfalso
      have hnil : categoryStmts oo ss = [] := by
        unfold categoryStmts
        rw [(uniqList_eq_nil_iff _).mpr (List.isEmpty_iff.mp he)]
      rw [hsplit] at hnil
      simp at hnil
  rw [hne]
  simp only [Bool.false_eq_true, if_false]
  have hexec := execList_fail o done failStmt rest st e hok herr
  unfold categoryStmts at hsplit
  rw [hsplit, hexec]

theorem split_cases {α : Type} (L R done rest : List α) (failx : α)
    (h : L ++ R = done ++ failx :: rest) :
    (∃ rest1, L = done ++ failx :: rest1 ∧ rest = rest1 ++ R) ∨
    (∃ done2, done = L ++ done2 ∧ R = done2 ++ failx :: rest) := by
  rcases List.append_eq_append_iff.mp h with ⟨a2, ha1, ha2⟩ | ⟨c2, hc1, hc2⟩
  · exact Or.inr ⟨a2, ha1, ha2⟩
  · cases c2 with
    | nil =>
      simp at hc1 hc2
      exact Or.inr ⟨[], by simp [hc1], by simp [hc2]⟩
    | cons x c3 =>
      have hx : x = failx ∧ rest = c3 ++ R := by
        have := hc2.symm
        simp at this
        exact ⟨this.1, this.2.symm⟩
      exact Or.inl ⟨c3, by rw [hc1, hx.1], hx.2⟩

theorem categoryStep (o : Oracle) (oo : Option (List String)) (ss : List (List SqlItem))
    (R done rest : List String) (failStmt : String) (st : ExecSt) (e : String)
    (hsplit : categoryStmts oo ss ++ R = done ++ failStmt :: rest)
    (hok : ∀ i, i < done.length → ∃ r, o (st.counter + i) = .ok r)
    (herr : o (st.counter + done.length) = .error e) :
    (entitySync o oo ss st =
      (.error e, ⟨st.counter + done.length + 1, st.trace ++ done ++ [failStmt],
        st.logs, st.ended⟩)) ∨
    (∃ q done2,
      entitySync o oo ss st =
        (.ok q, ⟨st.counter + (categoryStmts oo ss).length,
          st.trace ++ categoryStmts oo ss, st.logs, st.ended⟩) ∧
      done = categoryStmts oo ss ++ done2 ∧
      R = done2 ++ failStmt :: rest ∧
      (∀ i, i < done2.length →
        ∃ r, o (st.counter + (categoryStmts oo ss).length + i) = .ok r) ∧
      o (st.counter + (categoryStmts oo ss).length + done2.length) = .error e) := by
  rcases split_cases (categoryStmts oo ss) R done rest failStmt hsplit with
    ⟨rest1, hL, _⟩ | ⟨done2, hdone, hR⟩
  · exact Or.inl (entitySync_fail o oo ss st e done failStmt rest1 hL hok herr)
  · have hlen : done.length = (categoryStmts oo ss).length + done2.length := by
      rw [hdone]
      simp
    obtain ⟨q, hq⟩ := entitySync_ok o oo ss st
      (fun i hi => hok i (by omega))
    refine Or.inr ⟨q, done2, hq, hdone, hR, fun i hi => ?_, ?_⟩
    · obtain ⟨r, hr⟩ := hok ((categoryStmts oo ss).length + i) (by omega)
      exact ⟨r, by rw [← Nat.add_assoc] at hr; exact hr⟩
    · rw [Nat.add_assoc, ← hlen]
      exact herr

theorem syncTryBody_fail (o : Oracle) (tx : Bool) (v : ℚ)
    (A B C D E : List (List SqlItem)) (st : ExecSt) (e : String)
    (done : List String) (failStmt : String) (rest : List String)
    (hsplit : allStmts v A B C D E = done ++ failStmt :: rest)
    (hok : ∀ i, i < done.length → ∃ r, o (st.counter + i) = .ok r)
    (herr : o (st.counter + done.length) = .error e) :
    ∃ lg, syncTryBody o tx v A B C D E st =
      (.error e, ⟨st.counter + done.length + 1, st.trace ++ done ++ [failStmt],
        lg, st.ended⟩) := by
  unfold allStmts at hsplit
  rw [List.append_assoc, List.append_assoc, List.append_assoc] at hsplit
  rcases categoryStep o none A _ done rest failStmt st e hsplit hok herr with
    hfA | ⟨q1, d2, hq1, hdone1, hR1, hok2, herr2⟩
  · refine ⟨st.logs, ?_⟩
    unfold syncTryBody
    rw [hfA]
  · rcases categoryStep o none B _ d2 rest failStmt
      ⟨st.counter + (categoryStmts none A).length, st.trace ++ categoryStmts none A,
        st.logs, st.ended⟩ e hR1 hok2 herr2 with
      hfB | ⟨q2, d3, hq2, hdone2, hR2, hok3, herr3⟩
    · refine ⟨st.logs, ?_⟩
      subst hdone1
      unfold syncTryBody
      simp only [hq1, hfB]
      simp [List.append_assoc, Nat.add_assoc]
    · rcases categoryStep o (some extOrderList) C _ d3 rest failStmt
        ⟨st.counter + (categoryStmts none A).length + (categoryStmts none B).length,
          st.trace ++ categoryStmts none A ++ categoryStmts none B,
          st.logs, st.ended⟩ e hR2 hok3 herr3 with
        hfC | ⟨q3, d4, hq3, hdone3, hR3, hok4, herr4⟩
      · refine ⟨st.logs, ?_⟩
        subst hdone1 hdone2
        unfold syncTryBody
        simp only [hq1, hq2, hfC]
        simp [List.append_assoc, Nat.add_assoc]
      · by_cases hsup : _supportSeeds v = true
        · simp only [hsup, if_true] at hR3
          rcases categoryStep o none D _ d4 rest failStmt
            ⟨st.counter + (categoryStmts none A).length + (categoryStmts none B).length +
              (categoryStmts (some extOrderList) C).length,
              st.trace ++ categoryStmts none A ++ categoryStmts none B ++
                categoryStmts (some extOrderList) C,
              st.logs, st.ended⟩ e hR3 hok4 herr4 with
            hfD | ⟨q4, d5, hq4, hdone4, hR4, hok5, herr5⟩
          · refine ⟨st.logs, ?_⟩
            subst hdone1 hdone2 hdone3
            unfold syncTryBody
            simp only [hq1, hq2, hq3, hsup, if_true, hfD]
            simp [List.append_assoc, Nat.add_assoc]
          · cases q4 with
            | some rs =>
              rcases categoryStep o none E [] d5 rest failStmt
                ⟨st.counter + (categoryStmts none A).length + (categoryStmts none B).length +
                  (categoryStmts (some extOrderList) C).length + (categoryStmts none D).length,
                  st.trace ++ categoryStmts none A ++ categoryStmts none B ++
                    categoryStmts (some extOrderList) C ++ categoryStmts none D,
                  st.logs ++ ["Inserted seeds"], st.ended⟩ e
                (by rw [List.append_nil]; exact hR4) hok5 herr5 with
                hfE | ⟨q5, d6, _, _, habs, _, _⟩
              · refine ⟨st.logs ++ ["Inserted seeds"], ?_⟩
                subst hdone1 hdone2 hdone3 hdone4
                unfold syncTryBody
                simp only [hq1, hq2, hq3, hsup, if_true, hq4, addLog, hfE]
                simp [List.append_assoc, Nat.add_assoc]
              · exact absurd habs (by simp)
            | none =>
              rcases categoryStep o none E [] d5 rest failStmt
                ⟨st.counter + (categoryStmts none A).length + (categoryStmts none B).length +
                  (categoryStmts (some extOrderList) C).length + (categoryStmts none D).length,
                  st.trace ++ categoryStmts none A ++ categoryStmts none B ++
                    categoryStmts (some extOrderList) C ++ categoryStmts none D,
                  st.logs, st.ended⟩ e
                (by rw [List.append_nil]; exact hR4) hok5 herr5 with
                hfE | ⟨q5, d6, _, _, habs, _, _⟩
              · refine ⟨st.logs, ?_⟩
                subst hdone1 hdone2 hdone3 hdone4
                unfold syncTryBody
                simp only [hq1, hq2, hq3, hsup, if_true, hq4, hfE]
                simp [List.append_assoc, Nat.add_assoc]
              · exact absurd habs (by simp)
        · have hsupf : _supportSeeds v = false := by
            cases hs : _supportSeeds v
            · rfl
            · exact absurd hs hsup
          simp only [hsupf, Bool.false_eq_true, if_false, List.nil_append] at hR3
          rcases categoryStep o none E [] d4 rest failStmt
            ⟨st.counter + (categoryStmts none A).length + (categoryStmts none B).length +
              (categoryStmts (some extOrderList) C).length,
              st.trace ++ categoryStmts none A ++ categoryStmts none B ++
                categoryStmts (some extOrderList) C,
              st.logs ++ ["For Seeds need a PostgreSQL v9.5 or more"], st.ended⟩ e
            (by rw [List.append_nil]; exact hR3) hok4 herr4 with
            hfE | ⟨q5, d6, _, _, habs, _, _⟩
          · refine ⟨st.logs ++ ["For Seeds need a PostgreSQL v9.5 or more"], ?_⟩
            subst hdone1 hdone2 hdone3
            unfold syncTryBody
            simp only [hq1, hq2, hq3, hsupf, Bool.false_eq_true, if_false, addLog, hfE]
            simp [List.append_assoc, Nat.add_assoc]
          · exact absurd habs (by simp)

/-- C4: when any statement of the execution phase fails (the first failure being
at position done.length of the flattened statement list), the sync with
transaction wrapping enabled issues rollback, ends the connection, and re-raises
the original error unmodified; the trace shows the failed statement was issued
exactly once and no later statement ran. -/
theorem C4_rollback_on_failure (o : Oracle) (v : ℚ)
    (A B C D E : List (List SqlItem)) (e : String)
    (done : List String) (failStmt : String) (rest : List String)
    (hsplit : allStmts v A B C D E = done ++ failStmt :: rest)
    (hver : ∃ r, o 0 = .ok r) (hbeg : ∃ r, o 1 = .ok r)
    (hok : ∀ i, i < done.length → ∃ r, o (2 + i) = .ok r)
    (herr : o (2 + done.length) = .error e)
    (hrb : ∃ r, o (2 + done.length + 1) = .ok r) :
    ∃ lg, syncRun o true v A B C D E ⟨0, [], [], false⟩ =
      (.error e, ⟨done.length + 4,
        "select version()" :: "begin" :: (done ++ [failStmt] ++ ["rollback"]),
        lg, true⟩) := by
  obtain ⟨r0, hr0⟩ := hver
  obtain ⟨r1, hr1⟩ := hbeg
  obtain ⟨rr, hrr⟩ := hrb
  obtain ⟨lg, hbody⟩ := syncTryBody_fail o true v A B C D E
    ⟨2, ["select version()", "begin"], ["Sync started"], false⟩ e done failStmt rest
    hsplit hok herr
  refine ⟨lg, ?_⟩
  unfold syncRun
  simp [runQuery, addLog, hr0, hr1]
  unfold syncAfterBegin
  simp only [hbody]
  simp [runQuery, hrr, setEnded]
  omega

theorem C4_witness :
    (allStmts 10 [[⟨"create sequence", "S1;"⟩]] [] [] [] [] =
      ([] : List String) ++ "S1;" :: []) ∧
    (∃ lg, syncRun (fun n => if n == 2 then .error "boom" else .ok 1) true 10
        [[⟨"create sequence", "S1;"⟩]] [] [] [] [] ⟨0, [], [], false⟩ =
      (.error "boom", ⟨([] : List String).length + 4,
        "select version()" :: "begin" :: (([] : List String) ++ ["S1;"] ++ ["rollback"]),
        lg, true⟩)) := by
  refine ⟨by decide, C4_rollback_on_failure _ 10 _ _ _ _ _ "boom" [] "S1;" [] (by decide)
    ⟨1, rfl⟩ ⟨1, rfl⟩ (fun i hi => absurd hi (by simp)) rfl ⟨1, rfl⟩⟩

theorem getElem_append_mem_left {α : Type} (l1 l2 : List α) (i : Nat)
    (h : i < (l1 ++ l2).length) (hlt : i < l1.length) :
    (l1 ++ l2).get ⟨i, h⟩ ∈ l1 := by
  rw [List.get_eq_getElem, List.getElem_append_left hlt]
  exact List.getElem_mem _

theorem getElem_append_mem_right {α : Type} (l1 l2 : List α) (i : Nat)
    (h : i < (l1 ++ l2).length) (hge : l1.length ≤ i) :
    (l1 ++ l2).get ⟨i, h⟩ ∈ l2 := by
  rw [List.get_eq_getElem, List.getElem_append_right hge]
  exact List.getElem_mem _

theorem get_lt_of_split {α : Type} (p : α → Prop) (L l1 l2 : List α) (i : Nat)
    (h : i < L.length) (heq : L = l1 ++ l2)
    (hl2 : ∀ x ∈ l2, ¬ p x) (hp : p (L.get ⟨i, h⟩)) : i < l1.length := by
  subst heq
  by_contra hcon
  push_neg at hcon
  exact hl2 _ (getElem_append_mem_right _ _ _ _ hcon) hp

theorem get_ge_of_split {α : Type} (p : α → Prop) (L l1 l2 : List α) (i : Nat)
    (h : i < L.length) (heq : L = l1 ++ l2)
    (hl1 : ∀ x ∈ l1, ¬ p x) (hp : p (L.get ⟨i, h⟩)) : l1.length ≤ i := by
  subst heq
  by_contra hcon
  push_neg at hcon
  exact hl1 _ (getElem_append_mem_left _ _ _ _ hcon) hp

theorem opFilter_mem (flat : List SqlItem) (t : String) (x : SqlItem)
    (hx : x ∈ opFilter flat t) : x.operation = t := by
  simp [opFilter, List.mem_filter] at hx
  exact hx.2

theorem extUnlisted_mem (flat : List SqlItem) (x : SqlItem)
    (hx : x ∈ extUnlisted flat) : ¬ x.operation ∈ extOrderList := by
  simp [extUnlisted, List.mem_filter] at hx
  exact hx.2

theorem ext_split_one (flat : List SqlItem) :
    sortByList extOrderList flat =
      opFilter flat "drop foreignKey" ++
        (opFilter flat "drop primaryKey" ++
          (opFilter flat "drop unique" ++
            (opFilter flat "delete rows" ++
              (opFilter flat "add unique" ++ extUnlisted flat)))) := by
  simp [sortByList, extOrderList, opFilter, extUnlisted, List.append_assoc]

theorem ext_split_two (flat : List SqlItem) :
    sortByList extOrderList flat =
      (opFilter flat "drop foreignKey" ++ opFilter flat "drop primaryKey" ++
        opFilter flat "drop unique" ++ opFilter flat "delete rows") ++
      (opFilter flat "add unique" ++ extUnlisted flat) := by
  simp [sortByList, extOrderList, opFilter, extUnlisted, List.append_assoc]

theorem ext_split_three (flat : List SqlItem) :
    sortByList extOrderList flat =
      (extOrderList.flatMap (fun t => flat.filter (fun x => x.operation == t))) ++
        extUnlisted flat := rfl

/-- C3: the Extensions category is stably sorted by the fixed priority list
drop foreignKey, drop primaryKey, drop unique, delete rows, add unique; any
operation whose tag carries a listed priority comes before every operation
whose tag is not in the list, and in particular every drop foreignKey
operation appears before every add unique operation in the sorted flattened
list. -/
theorem C3_extensions_order :
    (extOrderList =
      ["drop foreignKey", "drop primaryKey", "drop unique", "delete rows", "add unique"]) ∧
    (∀ (stores : List (List SqlItem)) (i j : Nat)
      (hi : i < (sortByList extOrderList stores.flatten).length)
      (hj : j < (sortByList extOrderList stores.flatten).length),
      extOrderList.contains
        ((sortByList extOrderList stores.flatten).get ⟨i, hi⟩).operation = true →
      extOrderList.contains
        ((sortByList extOrderList stores.flatten).get ⟨j, hj⟩).operation = false →
      i < j) ∧
    (∀ (stores : List (List SqlItem)) (i j : Nat)
      (hi : i < (sortByList extOrderList stores.flatten).length)
      (hj : j < (sortByList extOrderList stores.flatten).length),
      ((sortByList extOrderList stores.flatten).get ⟨i, hi⟩).operation = "drop foreignKey" →
      ((sortByList extOrderList stores.flatten).get ⟨j, hj⟩).operation = "add unique" →
      i < j) := by
  refine ⟨rfl, ?_, ?_⟩
  · intro stores i j hi hj hlist hunl
    have h1 : i <
        (extOrderList.flatMap
          (fun t => stores.flatten.filter (fun x => x.operation == t))).length := by
      refine get_lt_of_split
        (fun x => extOrderList.contains x.operation = true) _ _ _ i hi
        (ext_split_three stores.flatten) ?_ hlist
      intro x hx hc
      have := extUnlisted_mem _ _ hx
      simp at hc
      exact this hc
    have h2 :
        (extOrderList.flatMap
          (fun t => stores.flatten.filter (fun x => x.operation == t))).length ≤ j := by
      refine get_ge_of_split
        (fun x => extOrderList.contains x.operation = false) _ _ _ j hj
        (ext_split_three stores.flatten) ?_ hunl
      intro x hx hc
      rw [List.mem_flatMap] at hx
      obtain ⟨t, ht, hxt⟩ := hx
      have hop : x.operation = t := by
        rw [List.mem_filter] at hxt
        exact eq_of_beq hxt.2
      rw [hop] at hc
      simp at hc
      exact hc ht
    omega
  · intro stores i j hi hj hdf hau
    have h1 : i < (opFilter stores.flatten "drop foreignKey").length := by
      refine get_lt_of_split
        (fun x => x.operation = "drop foreignKey") _ _ _ i hi
        (ext_split_one stores.flatten) ?_ hdf
      intro x hx hc
      simp only [List.mem_append] at hx
      rcases hx with h | h | h | h | h
      · rw [opFilter_mem _ _ _ h] at hc
        exact absurd hc (by decide)
      · rw [opFilter_mem _ _ _ h] at hc
        exact absurd hc (by decide)
      · rw [opFilter_mem _ _ _ h] at hc
        exact absurd hc (by decide)
      · rw [opFilter_mem _ _ _ h] at hc
        exact absurd hc (by decide)
      · exact extUnlisted_mem _ _ h (by rw [hc]; decide)
    have h2 :
        ((opFilter stores.flatten "drop foreignKey" ++
            opFilter stores.flatten "drop primaryKey" ++
            opFilter stores.flatten "drop unique" ++
            opFilter stores.flatten "delete rows")).length ≤ j := by
      refine get_ge_of_split
        (fun x => x.operation = "add unique") _ _ _ j hj
        (ext_split_two stores.flatten) ?_ hau
      intro x hx hc
      simp only [List.mem_append] at hx
      rcases hx with ((h | h) | h) | h
      · rw [opFilter_mem _ _ _ h] at hc
        exact absurd hc (by decide)
      · rw [opFilter_mem _ _ _ h] at hc
        exact absurd hc (by decide)
      · rw [opFilter_mem _ _ _ h] at hc
        exact absurd hc (by decide)
      · rw [opFilter_mem _ _ _ h] at hc
        exact absurd hc (by decide)
    simp only [List.length_append] at h2
    omega

theorem C3_witness : (0 : Nat) < 1 ∧ (0 : Nat) < 1 := by
  refine ⟨?_, ?_⟩
  · exact C3_extensions_order.2.2 [[⟨"add unique", "AU;"⟩, ⟨"drop foreignKey", "DF;"⟩]]
      0 1 (by decide) (by decide) (by decide) (by decide)
  · exact C3_extensions_order.2.1 [[⟨"custom", "Z;"⟩, ⟨"drop unique", "DU;"⟩]]
      0 1 (by decide) (by decide) (by decide) (by decide)

theorem C7_counterexample :
    allStmts 10 [] [] [] [] [] = [] ∧
    syncRun (fun _ => .ok 1) true 10 [] [] [] [] [] ⟨0, [], [], false⟩ =
      (.ok (), ⟨3, ["select version()", "begin", "commit"],
        ["Sync started", "Database does not need updating", "Sync successful!"],
        true⟩) := by
  constructor
  · rfl
  · rfl

/-- C7 (amended): when every category's flattened statement list is empty the
run reports that the database does not need updating and succeeds, but the
transaction is still opened: with transaction enabled the trace is exactly
select version(), begin, commit. -/
theorem C7_empty_diff_amended (o : Oracle) (tx : Bool) (v : ℚ)
    (A B C D E : List (List SqlItem))
    (hA : A.flatten = []) (hB : B.flatten = []) (hC : C.flatten = [])
    (hD : D.flatten = []) (hE : E.flatten = [])
    (h0 : ∃ r, o 0 = .ok r) (h1 : ∃ r, o 1 = .ok r) (h2 : ∃ r, o 2 = .ok r) :
    ∃ lgs, syncRun o tx v A B C D E ⟨0, [], [], false⟩ =
      (.ok (), ⟨(if tx then 3 else 1),
        "select version()" :: (if tx then ["begin", "commit"] else []),
        lgs, true⟩) ∧ "Database does not need updating" ∈ lgs := by
  obtain ⟨r0, hr0⟩ := h0
  obtain ⟨r1, hr1⟩ := h1
  obtain ⟨r2, hr2⟩ := h2
  have eA : entityFinal none A = [] := by simp [entityFinal, hA]
  have eB : entityFinal none B = [] := by simp [entityFinal, hB]
  have eC : entityFinal (some extOrderList) C = [] := by
    simp [entityFinal, sortByList, extOrderList, hC]
  have eD : entityFinal none D = [] := by simp [entityFinal, hD]
  have eE : entityFinal none E = [] := by simp [entityFinal, hE]
  by_cases hs : _supportSeeds v
  · cases tx with
    | true =>
      refine ⟨["Sync started", "Database does not need updating", "Sync successful!"],
        ?_, by simp⟩
      unfold syncRun
      simp only [hr0, runQuery, addLog]
      simp [hr1, runQuery, syncAfterBegin, syncTryBody, entitySync, eA, eB, eC, eD, eE,
        hs, hr2, setEnded, addLog]
    | false =>
      refine ⟨["Sync started", "Database does not need updating", "Sync successful!"],
        ?_, by simp⟩
      unfold syncRun
      simp only [hr0, runQuery, addLog]
      simp [syncAfterBegin, syncTryBody, entitySync, eA, eB, eC, eD, eE,
        hs, setEnded, addLog]
  · cases tx with
    | true =>
      refine ⟨["Sync started", "For Seeds need a PostgreSQL v9.5 or more",
        "Database does not need updating", "Sync successful!"], ?_, by simp⟩
      unfold syncRun
      simp only [hr0, runQuery, addLog]
      simp [hr1, runQuery, syncAfterBegin, syncTryBody, entitySync, eA, eB, eC, eD, eE,
        hs, hr2, setEnded, addLog]
    | false =>
      refine ⟨["Sync started", "For Seeds need a PostgreSQL v9.5 or more",
        "Database does not need updating", "Sync successful!"], ?_, by simp⟩
      unfold syncRun
      simp only [hr0, runQuery, addLog]
      simp [syncAfterBegin, syncTryBody, entitySync, eA, eB, eC, eD, eE,
        hs, setEnded, addLog]

theorem C7_witness :
    ∃ lgs, syncRun (fun _ => .ok 1) true 10 [] [] [] [] [] ⟨0, [], [], false⟩ =
      (.ok (), ⟨(if true then 3 else 1),
        "select version()" :: (if true then ["begin", "commit"] else []),
        lgs, true⟩) ∧ "Database does not need updating" ∈ lgs :=
  C7_empty_diff_amended (fun _ => .ok 1) true 10 [] [] [] [] []
    rfl rfl rfl rfl rfl ⟨1, rfl⟩ ⟨1, rfl⟩ ⟨1, rfl⟩

/-- C8: the seeds gate.  When the reported version fails the gate it is below
9.5; the run never reads the seed stores (the whole sync result is unchanged
by replacing them), and under an all-ok oracle the rest of the sync still
proceeds: the Sequences, Tables, Extensions and sequence-value statements all
run inside begin/commit, the run succeeds and the warning is logged. -/
theorem C8_seed_version_gate (v : ℚ) (hv : _supportSeeds v = false) :
    (v < (9.5 : ℚ)) ∧
    (∀ (o : Oracle) (tx : Bool) (A B C D D2 E : List (List SqlItem)) (st : ExecSt),
      syncRun o tx v A B C D E st = syncRun o tx v A B C D2 E st) ∧
    (∀ (o : Oracle) (A B C D E : List (List SqlItem)),
      (∀ n, ∃ r, o n = .ok r) →
      ∃ lgs, syncRun o true v A B C D E ⟨0, [], [], false⟩ =
        (.ok (), ⟨2 + ((categoryStmts none A).length + ((categoryStmts none B).length +
            ((categoryStmts (some extOrderList) C).length +
              ((categoryStmts none E).length + 1)))),
          "select version()" :: "begin" ::
            (categoryStmts none A ++ (categoryStmts none B ++
              (categoryStmts (some extOrderList) C ++
                (categoryStmts none E ++ ["commit"])))),
          lgs, true⟩) ∧
        "For Seeds need a PostgreSQL v9.5 or more" ∈ lgs) := by
  refine ⟨?_, ?_, ?_⟩
  · by_contra hle
    push_neg at hle
    have h95 := (_supportSeeds_spec v).mpr hle
    rw [hv] at h95
    exact Bool.false_ne_true h95
  · intro o tx A B C D D2 E st
    have hbody : ∀ s, syncTryBody o tx v A B C D E s = syncTryBody o tx v A B C D2 E s := by
      intro s
      unfold syncTryBody
      simp [hv]
    unfold syncRun
    unfold syncAfterBegin
    simp only [hbody]
  · intro o A B C D E hall
    obtain ⟨r0, hr0⟩ := hall 0
    obtain ⟨r1, hr1⟩ := hall 1
    obtain ⟨q1, h1⟩ := entitySync_ok o none A
      ⟨2, ["select version()", "begin"], ["Sync started"], false⟩ (fun i _ => hall _)
    obtain ⟨q2, h2⟩ := entitySync_ok o none B
      ⟨2 + (categoryStmts none A).length,
        "select version()" :: "begin" :: categoryStmts none A,
        ["Sync started"], false⟩ (fun i _ => hall _)
    obtain ⟨q3, h3⟩ := entitySync_ok o (some extOrderList) C
      ⟨2 + (categoryStmts none A).length + (categoryStmts none B).length,
        "select version()" :: "begin" ::
          (categoryStmts none A ++ categoryStmts none B),
        ["Sync started"], false⟩ (fun i _ => hall _)
    obtain ⟨q5, h5⟩ := entitySync_ok o none E
      ⟨2 + (categoryStmts none A).length + (categoryStmts none B).length +
          (categoryStmts (some extOrderList) C).length,
        "select version()" :: "begin" ::
          (categoryStmts none A ++ (categoryStmts none B ++
            categoryStmts (some extOrderList) C)),
        ["Sync started", "For Seeds need a PostgreSQL v9.5 or more"], false⟩
      (fun i _ => hall _)
    obtain ⟨rc, hrc⟩ := hall
      (2 + (categoryStmts none A).length + (categoryStmts none B).length +
        (categoryStmts (some extOrderList) C).length + (categoryStmts none E).length)
    by_cases hn : (q1.isSome || q2.isSome || q3.isSome || q5.isSome) = true
    · refine ⟨["Sync started", "For Seeds need a PostgreSQL v9.5 or more",
        "Sync successful!"], ?_, by simp⟩
      unfold syncRun
      simp [runQuery, addLog, hr0, hr1]
      unfold syncAfterBegin
      unfold syncTryBody
      simp only [h1, h2, h3, h5, hv, hn, Bool.false_eq_true, Bool.or_false, if_false,
        eq_self_iff_true, if_true, addLog, List.append_assoc, List.cons_append,
        List.nil_append]
      simp only [Nat.add_assoc] at hrc
      simp [runQuery, hrc, setEnded, addLog, List.append_assoc, Nat.add_assoc]
    · have hnf : (q1.isSome || q2.isSome || q3.isSome || q5.isSome) = false := by
        cases hb : (q1.isSome || q2.isSome || q3.isSome || q5.isSome)
        · rfl
        · exact absurd hb hn
      refine ⟨["Sync started", "For Seeds need a PostgreSQL v9.5 or more",
        "Database does not need updating", "Sync successful!"], ?_, by simp⟩
      unfold syncRun
      simp [runQuery, addLog, hr0, hr1]
      unfold syncAfterBegin
      unfold syncTryBody
      simp only [h1, h2, h3, h5, hv, hnf, Bool.false_eq_true, Bool.or_false, if_false,
        addLog, List.append_assoc, List.cons_append, List.nil_append]
      simp only [Nat.add_assoc] at hrc
      simp [runQuery, hrc, setEnded, addLog, List.append_assoc, Nat.add_assoc]

theorem C8_witness :
    ((9 : ℚ) < 9.5) ∧
    (syncRun (fun _ => .ok 1) true 9 [[⟨"create sequence", "S1;"⟩]] [] [] [[⟨"insert", "SEED;"⟩]] []
        ⟨0, [], [], false⟩ =
      syncRun (fun _ => .ok 1) true 9 [[⟨"create sequence", "S1;"⟩]] [] [] [] []
        ⟨0, [], [], false⟩) ∧
    (∃ lgs, syncRun (fun _ => .ok 1) true 9 [[⟨"create sequence", "S1;"⟩]] [] [] [[⟨"insert", "SEED;"⟩]] []
        ⟨0, [], [], false⟩ =
      (.ok (), ⟨2 + ((categoryStmts none [[⟨"create sequence", "S1;"⟩]]).length +
          ((categoryStmts none []).length +
            ((categoryStmts (some extOrderList) []).length + ((categoryStmts none []).length + 1)))),
        "select version()" :: "begin" ::
          (categoryStmts none [[⟨"create sequence", "S1;"⟩]] ++ (categoryStmts none [] ++
            (categoryStmts (some extOrderList) [] ++ (categoryStmts none [] ++ ["commit"])))),
        lgs, true⟩) ∧
      "For Seeds need a PostgreSQL v9.5 or more" ∈ lgs) := by
  have h := C8_seed_version_gate 9 (by decide)
  exact ⟨h.1, h.2.1 _ true _ _ _ _ _ _ _, h.2.2 _ _ _ _ _ _ (fun n => ⟨1, rfl⟩)⟩
